import Mathlib

/-!
Verification of the nx `update-10-4-0/update-eslint-configs-to-use-nx-presets`
migration (file `packages/linter/src/migrations/update-10-4-0/update-eslint-configs-to-use-nx-presets.ts`).

The migration rewrites an ESLint JSON configuration document so that it extends
the shared Nx presets and drops content duplicated by the preset.  We embed the
JSON data model and each exported reducer as pure Lean functions over an
association-list representation of JSON objects, and prove the specification
claims about them.

Modelling conventions:
* JSON numbers are modelled as integers (every numeric literal appearing in
  this migration is an integer).  The results of `Number(...)` coercion are
  modelled as exact numbers (`NaN`, a signed infinity, or `m * 10^e` with
  unbounded integers `m`, `e`): the full `StringNumericLiteral` grammar —
  decimal literals with fraction and exponent, `0x`/`0o`/`0b` radix literals,
  signs, `Infinity` and the empty/whitespace-only string — is parsed, but
  IEEE-754 double rounding and overflow are not modelled.
* Mutation of the `json` and `configBeingExtended` parameters is modelled by
  returning the updated pair.  A reducer that can throw a `TypeError` on
  inputs outside the `Linter.Config` shape returns `Option`; `none` models the
  exception escaping the call.
* All documents originate from `JSON.parse` (the target) or from a separate
  module constant (the reference), so no two composite values are ever the
  same JavaScript object reference, and JavaScript objects never carry
  duplicate keys.
-/

namespace NxEslint

/-- JSON-like values, as produced by `JSON.parse`. -/
inductive JVal where
  | null : JVal
  | bool : Bool → JVal
  | num : Int → JVal
  | str : String → JVal
  | arr : List JVal → JVal
  | obj : List (String × JVal) → JVal

mutual

/-- Decidable structural equality of JSON values. -/
def decEqJ : (a b : JVal) → Decidable (a = b)
  | .null, .null => isTrue rfl
  | .bool a, .bool b =>
    if h : a = b then isTrue (by rw [h]) else isFalse (fun hh => h (JVal.bool.inj hh))
  | .num a, .num b =>
    if h : a = b then isTrue (by rw [h]) else isFalse (fun hh => h (JVal.num.inj hh))
  | .str a, .str b =>
    if h : a = b then isTrue (by rw [h]) else isFalse (fun hh => h (JVal.str.inj hh))
  | .arr xs, .arr ys =>
    match decEqLJ xs ys with
    | isTrue h => isTrue (by rw [h])
    | isFalse h => isFalse (fun hh => h (JVal.arr.inj hh))
  | .obj fs, .obj gs =>
    match decEqFJ fs gs with
    | isTrue h => isTrue (by rw [h])
    | isFalse h => isFalse (fun hh => h (JVal.obj.inj hh))
  | .null, .bool _ | .null, .num _ | .null, .str _ | .null, .arr _ | .null, .obj _
  | .bool _, .null | .bool _, .num _ | .bool _, .str _ | .bool _, .arr _ | .bool _, .obj _
  | .num _, .null | .num _, .bool _ | .num _, .str _ | .num _, .arr _ | .num _, .obj _
  | .str _, .null | .str _, .bool _ | .str _, .num _ | .str _, .arr _ | .str _, .obj _
  | .arr _, .null | .arr _, .bool _ | .arr _, .num _ | .arr _, .str _ | .arr _, .obj _
  | .obj _, .null | .obj _, .bool _ | .obj _, .num _ | .obj _, .str _ | .obj _, .arr _ =>
    isFalse (fun h => nomatch h)

/-- Decidable structural equality of JSON value lists. -/
def decEqLJ : (xs ys : List JVal) → Decidable (xs = ys)
  | [], [] => isTrue rfl
  | [], _ :: _ => isFalse (fun h => nomatch h)
  | _ :: _, [] => isFalse (fun h => nomatch h)
  | x :: xs, y :: ys =>
    match decEqJ x y with
    | isFalse h => isFalse (fun hh => h (List.cons.inj hh).1)
    | isTrue h1 =>
      match decEqLJ xs ys with
      | isTrue h2 => isTrue (by rw [h1, h2])
      | isFalse h2 => isFalse (fun hh => h2 (List.cons.inj hh).2)

/-- Decidable structural equality of JSON field lists. -/
def decEqFJ : (ps qs : List (String × JVal)) → Decidable (ps = qs)
  | [], [] => isTrue rfl
  | [], _ :: _ => isFalse (fun h => nomatch h)
  | _ :: _, [] => isFalse (fun h => nomatch h)
  | (k, v) :: ps, (l, w) :: qs =>
    if hk : k = l then
      match decEqJ v w with
      | isFalse h => isFalse (fun hh => h (congrArg Prod.snd (List.cons.inj hh).1))
      | isTrue h1 =>
        match decEqFJ ps qs with
        | isTrue h2 => isTrue (by rw [hk, h1, h2])
        | isFalse h2 => isFalse (fun hh => h2 (List.cons.inj hh).2)
    else isFalse (fun hh => hk (congrArg Prod.fst (List.cons.inj hh).1))

end

instance instDecEqJVal : DecidableEq JVal := decEqJ

/-- A JSON document (the field list of a top-level JSON object). -/
abbrev Doc := List (String × JVal)

/-- Reading a field of a JavaScript object: the value at the key, if present. -/
def getF (d : Doc) (k : String) : Option JVal :=
  (d.find? (fun p => p.1 == k)).map Prod.snd

/-- Assigning a field of a JavaScript object: an existing key keeps its
position and gets the new value, a new key is appended at the end. -/
def setF (d : Doc) (k : String) (v : JVal) : Doc :=
  if d.any (fun p => p.1 == k) then
    d.map (fun p => if p.1 == k then (k, v) else p)
  else
    d ++ [(k, v)]

/-- The JavaScript `delete` operator on an object field. -/
def delF (d : Doc) (k : String) : Doc :=
  d.filter (fun p => !(p.1 == k))

/-- JavaScript truthiness of a JSON value (`undefined` is handled at the
`Option` level by `truthyOpt`). -/
def truthy : JVal → Bool
  | .null => false
  | .bool b => b
  | .num n => !(n == 0)
  | .str s => !(s == "")
  | .arr _ => true
  | .obj _ => true

/-- JavaScript truthiness of a possibly-absent value. -/
def truthyOpt : Option JVal → Bool
  | none => false
  | some v => truthy v

/-- JavaScript strict equality (`===`, which agrees with the SameValueZero
comparison used by `Array.prototype.includes` and `Set` on these values)
between values originating from two independently parsed documents:
primitives compare by value, while objects and arrays compare by reference
identity, which never holds between (or inside) freshly parsed documents, so
composite comparisons are `false`. -/
def strictEq : JVal → JVal → Bool
  | .null, .null => true
  | .bool a, .bool b => a == b
  | .num a, .num b => a == b
  | .str a, .str b => a == b
  | _, _ => false

/-- `v === w` where the right-hand side may be `undefined` (absent). -/
def strictEqU (v : JVal) : Option JVal → Bool
  | some w => strictEq v w
  | none => false

/-- `a === b` where both sides may be `undefined`; `undefined === undefined`
is `true`. -/
def strictEqOpt : Option JVal → Option JVal → Bool
  | none, none => true
  | some v, some w => strictEq v w
  | _, _ => false

/-- Insert a field into a key-sorted field list. -/
def insertByKey (p : String × JVal) : List (String × JVal) → List (String × JVal)
  | [] => [p]
  | q :: qs => if p.1 ≤ q.1 then p :: q :: qs else q :: insertByKey p qs

/-- Sort a field list by key. -/
def sortByKey (l : List (String × JVal)) : List (String × JVal) :=
  l.foldr insertByKey []

/-- Normal form of a JSON value: object fields are recursively sorted by key.
Two JSON values (with the unique keys `JSON.parse` guarantees) are
`assert.deepStrictEqual` exactly when their normal forms coincide: deep
structural equality that is order-sensitive for arrays and order-insensitive
for object keys. -/
def normJ : JVal → JVal
  | .null => .null
  | .bool b => .bool b
  | .num n => .num n
  | .str s => .str s
  | .arr xs => .arr (xs.attach.map (fun x => normJ x.1))
  | .obj fs => .obj (sortByKey (fs.attach.map (fun p => (p.1.1, normJ p.1.2))))
termination_by v => sizeOf v
decreasing_by
  · have := List.sizeOf_lt_of_mem x.2
    simp only [JVal.arr.sizeOf_spec]
    omega
  · have h1 := List.sizeOf_lt_of_mem p.2
    have h2 : sizeOf p.1.2 < sizeOf p.1 := by
      obtain ⟨a, b⟩ := p.1
      simp only [Prod.mk.sizeOf_spec]
      omega
    simp only [JVal.obj.sizeOf_spec]
    omega

/-- Node's `assert.deepStrictEqual`, as a boolean comparison (the migration
wraps the thrown `AssertionError` in `try`/`catch`, so only the boolean
outcome is observable). -/
def deepEq (a b : JVal) : Bool :=
  decide (normJ a = normJ b)

/-- `deepStrictEqual(v, w)` where `w` may be `undefined`: a present JSON value
is never deep-equal to `undefined`. -/
def deepEqU (v : JVal) : Option JVal → Bool
  | some w => deepEq v w
  | none => false

/-- A JavaScript whitespace or line-terminator character: ASCII whitespace,
no-break space, the BOM and the Unicode line/paragraph separators (the
remaining Unicode `Zs` spaces play no role in ESLint configuration files). -/
def isWsChar (c : Char) : Bool :=
  c == ' ' || c == '\t' || c == '\n' || c == '\r' ||
    c.toNat == 11 || c.toNat == 12 || c.toNat == 160 ||
    c.toNat == 0xFEFF || c.toNat == 0x2028 || c.toNat == 0x2029

/-- Strip leading and trailing whitespace from a character list. -/
def trimChars (cs : List Char) : List Char :=
  ((cs.dropWhile isWsChar).reverse.dropWhile isWsChar).reverse

/-- A decimal digit. -/
def isDigitChar (c : Char) : Bool :=
  48 ≤ c.toNat && c.toNat ≤ 57

/-- The value of a decimal digit string (each character already validated as
a decimal digit). -/
def digitsVal (cs : List Char) : Nat :=
  cs.foldl (fun a c => a * 10 + (c.toNat - 48)) 0

/-- Split a character list into its leading run of decimal digits and the
rest. -/
def splitDigits (cs : List Char) : List Char × List Char :=
  (cs.takeWhile isDigitChar, cs.dropWhile isDigitChar)

/-- A hexadecimal digit and its value (bounded below the radix, this also
serves as the octal and binary digit set). -/
def hexDigitVal (c : Char) : Option Nat :=
  if 48 ≤ c.toNat && c.toNat ≤ 57 then some (c.toNat - 48)
  else if 97 ≤ c.toNat && c.toNat ≤ 102 then some (c.toNat - 87)
  else if 65 ≤ c.toNat && c.toNat ≤ 70 then some (c.toNat - 55)
  else none

/-- Parse a non-empty digit string in the given radix (16, 8 or 2): every
character must be a digit of that radix. -/
def parseRadixNat (base : Nat) (cs : List Char) : Option Nat :=
  if cs ≠ [] && cs.all (fun c =>
      match hexDigitVal c with
      | some d => decide (d < base)
      | none => false) then
    some (cs.foldl (fun a c => a * base + (hexDigitVal c).getD 0) 0)
  else none

/-- The result of JavaScript `Number(...)`: `NaN`, a signed infinity
(`inf true` is `+Infinity`), or the exact value `m * 10^e`.  JavaScript
doubles are modelled as exact numbers: rounding to the nearest representable
double and overflow to infinity are not modelled. -/
inductive JNum where
  | nan : JNum
  | inf : Bool → JNum
  | val : Int → Int → JNum
deriving DecidableEq

/-- `10 ^ k` over the integers. -/
def pow10 : Nat → Int
  | 0 => 1
  | k + 1 => 10 * pow10 k

/-- `===` on two `Number(...)` results: `NaN` is equal to nothing (itself
included), infinities compare by sign, and finite values compare by exact
value (`m1 * 10^e1 = m2 * 10^e2`, decided by cross-multiplying with the
power-of-ten difference of the exponents). -/
def jnumEq : JNum → JNum → Bool
  | .val m1 e1, .val m2 e2 =>
    if e2 ≤ e1 then m1 * pow10 (e1 - e2).toNat == m2
    else m1 == m2 * pow10 (e2 - e1).toNat
  | .inf s1, .inf s2 => s1 == s2
  | _, _ => false

/-- Negation of a `Number(...)` result, for a leading `-` sign. -/
def jnumNeg : JNum → JNum
  | .nan => .nan
  | .inf s => .inf (!s)
  | .val m e => .val (-m) e

/-- Parse the `ExponentPart?` tail of a decimal literal: an empty rest means
exponent 0; otherwise `e`/`E`, an optional sign and a non-empty digit string
must make up the entire rest. -/
def parseExpTail (cs : List Char) : Option Int :=
  match cs with
  | [] => some 0
  | c :: rest =>
    if c == 'e' || c == 'E' then
      match rest with
      | '+' :: ds =>
        if ds ≠ [] && ds.all isDigitChar then some (digitsVal ds : Int) else none
      | '-' :: ds =>
        if ds ≠ [] && ds.all isDigitChar then some (-(digitsVal ds : Int)) else none
      | ds =>
        if ds ≠ [] && ds.all isDigitChar then some (digitsVal ds : Int) else none
    else none

/-- Parse `StrUnsignedDecimalLiteral` minus its `Infinity` alternative:
`DecimalDigits . DecimalDigits? ExponentPart?`, `. DecimalDigits
ExponentPart?` or `DecimalDigits ExponentPart?`, returning the decimal
mantissa and the power-of-ten exponent of the exact value. -/
def parseDecMantissa (cs : List Char) : Option (Nat × Int) :=
  match splitDigits cs with
  | (ip, rest1) =>
    match rest1 with
    | '.' :: rest2 =>
      match splitDigits rest2 with
      | (fp, rest3) =>
        if ip.isEmpty && fp.isEmpty then none
        else (parseExpTail rest3).map
          (fun ex => (digitsVal (ip ++ fp), ex - (fp.length : Int)))
    | _ =>
      if ip.isEmpty then none
      else (parseExpTail rest1).map (fun ex => (digitsVal ip, ex))

/-- Parse `StrUnsignedDecimalLiteral`: `Infinity` or a decimal literal;
anything else is `NaN`. -/
def parseDecOrInf (cs : List Char) : JNum :=
  if cs = "Infinity".data then .inf true
  else
    match parseDecMantissa cs with
    | some me => .val (me.1 : Int) me.2
    | none => .nan

/-- JavaScript `Number(...)` on an already-trimmed string, per the
`StringNumericLiteral` grammar: the empty string is 0; a leading `+`/`-`
signs a decimal literal or `Infinity`; `0x`/`0X`, `0o`/`0O` and `0b`/`0B`
introduce unsigned radix literals; everything else must be an unsigned
decimal literal or `Infinity`, and any other string is `NaN`. -/
def parseNumChars (cs : List Char) : JNum :=
  match cs with
  | [] => .val 0 0
  | '+' :: rest => parseDecOrInf rest
  | '-' :: rest => jnumNeg (parseDecOrInf rest)
  | '0' :: c :: rest =>
    if c == 'x' || c == 'X' then
      match parseRadixNat 16 rest with
      | some n => .val (n : Int) 0
      | none => .nan
    else if c == 'o' || c == 'O' then
      match parseRadixNat 8 rest with
      | some n => .val (n : Int) 0
      | none => .nan
    else if c == 'b' || c == 'B' then
      match parseRadixNat 2 rest with
      | some n => .val (n : Int) 0
      | none => .nan
    else parseDecOrInf ('0' :: c :: rest)
  | _ => parseDecOrInf cs

/-- JavaScript `Number(...)` coercion: `null`, booleans and numbers coerce as
in JavaScript, and a string is trimmed and parsed per the
`StringNumericLiteral` grammar.  Objects coerce to `NaN`; the
array-to-primitive join coercion is not modelled (arrays give `NaN`), and
every theorem about a specific coerced value restricts it to primitives. -/
def jsToNumber : JVal → JNum
  | .null => .val 0 0
  | .bool b => .val (if b then 1 else 0) 0
  | .num n => .val n 0
  | .str s => parseNumChars (trimChars s.data)
  | .arr _ => .nan
  | .obj _ => .nan

/-- `Number(x)` where `x` may be `undefined` (`Number(undefined)` is `NaN`). -/
def jsToNumberOpt : Option JVal → JNum
  | none => .nan
  | some v => jsToNumber v

/-- `v` is a JavaScript primitive (not an object or array). -/
def isPrim : JVal → Bool
  | .arr _ => false
  | .obj _ => false
  | _ => true

/-- Property access `v[name]` on an arbitrary value.  Only object own
properties are modelled; accesses on primitives and arrays yield `undefined`
(string index/`length` properties and array index properties play no role on
the well-formed documents considered here). -/
def getProp : JVal → String → Option JVal
  | .obj fs, k => getF fs k
  | _, _ => none

/-- `ensureStringArray` (source lines 414-419): a string becomes a singleton
array, a falsy value becomes `[]`, everything else is returned unchanged. -/
def ensureStringArray : Option JVal → JVal
  | some (.str s) => .arr [.str s]
  | some v => if truthy v then v else .arr []
  | none => .arr []

/-- `x ||= []` normalization used for `plugins`: a falsy (or absent) value
becomes the empty array. -/
def normListField : Option JVal → JVal
  | some v => if truthy v then v else .arr []
  | none => .arr []

/-- `x ||= {}` normalization used for `parserOptions` and the generic object
fields: a falsy (or absent) value becomes the empty object. -/
def normObjField : Option JVal → JVal
  | some v => if truthy v then v else .obj []
  | none => .obj []

/-- `Array.prototype.includes`, with the SameValueZero comparison. -/
def includesSV (xs : List JVal) (v : JVal) : Bool :=
  xs.any (fun x => strictEq x v)

/-- `Array.from(new Set(xs))`: keep the first occurrence of every value,
where `Set` membership is the SameValueZero comparison (the head is kept and
every later value SameValueZero-equal to it is dropped). -/
def dedupSV : List JVal → List JVal
  | [] => []
  | x :: xs => x :: (dedupSV xs).filter (fun y => !strictEq x y)

/-- The `extends` list produced by `updateExtendsAndRemoveDuplication` from
the normalized target list `xs` and normalized reference list `cs`: unshift
the injected identifier, drop entries contained in the reference list,
de-duplicate keeping first occurrences. -/
def extCore (xs cs : List JVal) (extendsToAdd : String) : List JVal :=
  dedupSV ((JVal.str extendsToAdd :: xs).filter (fun x => !includesSV cs x))

/-- `updateExtendsAndRemoveDuplication` (source lines 421-439).  Returns the
updated `(json, configBeingExtended)` pair; `none` models the `TypeError`
thrown when a normalized `extends` value is a truthy non-array non-string. -/
def updateExtendsAndRemoveDuplication (json configBeingExtended : Doc)
    (deleteIfUltimatelyEmpty : Bool) (extendsToAdd : String) :
    Option (Doc × Doc) :=
  let e := ensureStringArray (getF json "extends")
  let ce := ensureStringArray (getF configBeingExtended "extends")
  let json1 := setF json "extends" e
  let cfg1 := setF configBeingExtended "extends" ce
  match e, ce with
  | .arr xs, .arr cs =>
    let res := extCore xs cs extendsToAdd
    let json2 := setF json1 "extends" (.arr res)
    some (if deleteIfUltimatelyEmpty && res.isEmpty then delF json2 "extends" else json2,
          cfg1)
  | _, _ => none

/-- The `plugins` list produced by `updatePluginsAndRemoveDuplication` from
the normalized target list `ps` and normalized reference list `cs`: unshift
the plugin to ensure when it is not already present, drop entries contained
in the reference list, de-duplicate keeping first occurrences. -/
def plugCore (ps cs : List JVal) (ensurePlugin : Option String) : List JVal :=
  let ps1 := match ensurePlugin with
    | some s => if !includesSV ps (.str s) then JVal.str s :: ps else ps
    | none => ps
  dedupSV (ps1.filter (fun x => !includesSV cs x))

/-- `updatePluginsAndRemoveDuplication` (source lines 441-459).  Returns the
updated `(json, configBeingExtended)` pair; `none` models the `TypeError`
thrown when a `plugins` value (after `||= []`) is not an array. -/
def updatePluginsAndRemoveDuplication (json configBeingExtended : Doc)
    (deleteIfUltimatelyEmpty : Bool) (ensurePlugin : Option String) :
    Option (Doc × Doc) :=
  let pv := normListField (getF json "plugins")
  let cpv := normListField (getF configBeingExtended "plugins")
  let json1 := if truthyOpt (getF json "plugins") then json else setF json "plugins" pv
  let cfg1 := if truthyOpt (getF configBeingExtended "plugins") then configBeingExtended
              else setF configBeingExtended "plugins" cpv
  match pv, cpv with
  | .arr ps, .arr cs =>
    let res := plugCore ps cs ensurePlugin
    let json2 := setF json1 "plugins" (.arr res)
    some (if deleteIfUltimatelyEmpty && res.isEmpty then delF json2 "plugins" else json2,
          cfg1)
  | _, _ => none

/-- One pass of `for (const [name, val] of Object.entries(fs)) { if cmp ...
delete }`: iterate over the snapshot `fs`, deleting from the accumulating
object every key whose snapshot value satisfies `cmp` against the reference
object's value for the same key. -/
def deleteMatchingEntries (cmp : JVal → Option JVal → Bool) (ref : JVal)
    (fs : Doc) : Doc :=
  fs.foldl (fun acc kv => if cmp kv.2 (getProp ref kv.1) then delF acc kv.1 else acc) fs

/-- The condition of the `ecmaVersion` special case (source lines 472-476):
`Number(target ecmaVersion) === 2018` or
`Number(target ecmaVersion) === Number(reference ecmaVersion)`, with `===` on
numbers (`NaN` is `===` to nothing, itself included). -/
def ecmaDeleteCond (ev cev : Option JVal) : Bool :=
  jnumEq (jsToNumberOpt ev) (.val 2018 0) ||
    jnumEq (jsToNumberOpt ev) (jsToNumberOpt cev)

/-- The `parserOptions` field list after the body of
`updateParserOptionsAndRemoveDuplication`: the `ecmaVersion` special case
followed by the strict-equality entry sweep against the normalized reference
`parserOptions` value `cpv`. -/
def poCore (fs : Doc) (cpv : JVal) : Doc :=
  let fs1 := if ecmaDeleteCond (getF fs "ecmaVersion") (getProp cpv "ecmaVersion")
             then delF fs "ecmaVersion" else fs
  deleteMatchingEntries strictEqU cpv fs1

/-- `updateParserOptionsAndRemoveDuplication` (source lines 461-489).
Returns the updated `(json, configBeingExtended)` pair; `none` models a
target `parserOptions` value (after `||= {}`) that is not an object, a shape
excluded by the `Linter.Config` parameter type. -/
def updateParserOptionsAndRemoveDuplication (json configBeingExtended : Doc) :
    Option (Doc × Doc) :=
  let pv := normObjField (getF json "parserOptions")
  let cpv := normObjField (getF configBeingExtended "parserOptions")
  let json1 := if truthyOpt (getF json "parserOptions") then json
               else setF json "parserOptions" pv
  let cfg1 := if truthyOpt (getF configBeingExtended "parserOptions") then configBeingExtended
              else setF configBeingExtended "parserOptions" cpv
  match pv with
  | .obj fs => some (setF json1 "parserOptions" (.obj (poCore fs cpv)), cfg1)
  | _ => none

/-- The generic object-field list after the body of
`updateObjPropAndRemoveDuplication`: the deep-equality entry sweep against
the normalized reference value `cpv`. -/
def objCore (fs : Doc) (cpv : JVal) : Doc :=
  deleteMatchingEntries deepEqU cpv fs

/-- `updateObjPropAndRemoveDuplication` (source lines 491-513).  Returns the
updated `(json, configBeingExtended)` pair; `none` models a target field
value (after `||= {}`) that is not an object, a shape excluded by the
`Linter.Config` parameter type. -/
def updateObjPropAndRemoveDuplication (json configBeingExtended : Doc)
    (objPropName : String) (deleteIfUltimatelyEmpty : Bool) :
    Option (Doc × Doc) :=
  let pv := normObjField (getF json objPropName)
  let cpv := normObjField (getF configBeingExtended objPropName)
  let json1 := if truthyOpt (getF json objPropName) then json
               else setF json objPropName pv
  let cfg1 := if truthyOpt (getF configBeingExtended objPropName) then configBeingExtended
              else setF configBeingExtended objPropName cpv
  match pv with
  | .obj fs =>
    let res := objCore fs cpv
    let json2 := setF json1 objPropName (.obj res)
    some (if deleteIfUltimatelyEmpty && res.isEmpty then delF json2 objPropName else json2,
          cfg1)
  | _ => none

/-- The filtering predicate of the overrides reducer (source lines 529-537):
scan the reference overrides for a deep-structural match, returning `false`
when one is found — and `false` after the loop as well. -/
def overridesFilterPred (extendedOverrides : List JVal) (o : JVal) : Bool :=
  match extendedOverrides.find? (fun c => deepEq o c) with
  | some _ => false
  | none => false

/-- Both `overrides` fields are non-empty arrays (the guard of the overrides
reducer, source lines 520-528). -/
def overridesBothNonempty (json configBeingExtended : Doc) : Bool :=
  (match getF json "overrides" with
   | some (.arr (_ :: _)) => true
   | _ => false) &&
  (match getF configBeingExtended "overrides" with
   | some (.arr (_ :: _)) => true
   | _ => false)

/-- `updateOverridesAndRemoveDuplication` (source lines 515-541).  Total: the
function guards every access with `Array.isArray` and never mutates
`configBeingExtended`, so only the updated `json` is returned. -/
def updateOverridesAndRemoveDuplication (json configBeingExtended : Doc)
    (deleteIfUltimatelyEmpty : Bool) : Doc :=
  match getF json "overrides" with
  | some (.arr os) =>
    if os.isEmpty then json
    else
      match getF configBeingExtended "overrides" with
      | some (.arr cs) =>
        if cs.isEmpty then json
        else
          let res := os.filter (fun o => overridesFilterPred cs o)
          let json1 := setF json "overrides" (.arr res)
          if deleteIfUltimatelyEmpty && res.isEmpty then delF json1 "overrides" else json1
      | _ => json
  | _ => json

/-- The `extends` list of `currentTypescriptConfig` (source lines 391-397). -/
def tsExtList : List JVal :=
  [.str "eslint:recommended",
   .str "plugin:@typescript-eslint/eslint-recommended",
   .str "plugin:@typescript-eslint/recommended",
   .str "prettier",
   .str "prettier/@typescript-eslint"]

/-- The `plugins` list of `currentTypescriptConfig` (source line 390). -/
def tsPluginsList : List JVal := [.str "@typescript-eslint"]

/-- The `parserOptions` value of `currentTypescriptConfig` (source lines 386-389). -/
def tsPOVal : JVal := .obj [("ecmaVersion", .num 2020), ("sourceType", .str "module")]

/-- The `rules` value of `currentTypescriptConfig` (source lines 398-403). -/
def tsRulesVal : JVal :=
  .obj [("@typescript-eslint/explicit-member-accessibility", .str "off"),
        ("@typescript-eslint/explicit-module-boundary-types", .str "off"),
        ("@typescript-eslint/explicit-function-return-type", .str "off"),
        ("@typescript-eslint/no-parameter-properties", .str "off")]

/-- The single override block of `currentTypescriptConfig` (source lines 404-411). -/
def tsOverrideBlock : JVal :=
  .obj [("files", .arr [.str "*.tsx"]),
        ("rules", .obj [("@typescript-eslint/no-unused-vars", .str "off")])]

/-- The `currentTypescriptConfig` reference document (source lines 384-412). -/
def currentTypescriptConfig : Doc :=
  [("parser", .str "@typescript-eslint/parser"),
   ("parserOptions", tsPOVal),
   ("plugins", .arr tsPluginsList),
   ("extends", .arr tsExtList),
   ("rules", tsRulesVal),
   ("overrides", .arr [tsOverrideBlock])]

/-- The callback body of `updateRootESLintConfig` (source lines 15-60): the
ordered reducer sequence against `currentTypescriptConfig` followed by the
final `parser` deletion.  The reference document is threaded through the
calls because the source reducers mutate the shared module constant. -/
def updateRootESLintConfig (json : Doc) : Option Doc := do
  let (json, cfg) ← updateExtendsAndRemoveDuplication json currentTypescriptConfig
    true "plugin:@nrwl/nx/typescript"
  let (json, cfg) ← updatePluginsAndRemoveDuplication json cfg true (some "@nrwl/nx")
  let (json, cfg) ← updateParserOptionsAndRemoveDuplication json cfg
  let json := updateOverridesAndRemoveDuplication json cfg true
  let (json, cfg) ← updateObjPropAndRemoveDuplication json cfg "rules" false
  pure (if strictEqOpt (getF json "parser") (getF cfg "parser") then delF json "parser" else json)

/-- The top-level keys of a document are pairwise distinct (guaranteed by
`JSON.parse`). -/
def nodupKeys (d : Doc) : Bool :=
  decide ((d.map Prod.fst).Nodup)

/-- Inner keys of an object value are pairwise distinct. -/
def innerNodup : JVal → Bool
  | .obj fs => nodupKeys fs
  | _ => true

/-- `v` is an array value. -/
def isArrV : JVal → Bool
  | .arr _ => true
  | _ => false

/-- `v` is an object value. -/
def isObjV : JVal → Bool
  | .obj _ => true
  | _ => false

/-- Well-formed root ESLint configuration document: unique keys, and the
fields the migration touches have the shapes the `Linter.Config` type
declares (so no reducer throws): `extends` normalizes to an array, `plugins`
normalizes to an array, `parserOptions` and `rules` normalize to objects,
and `parserOptions` has unique inner keys. -/
def wfDoc (d : Doc) : Bool :=
  nodupKeys d &&
  isArrV (ensureStringArray (getF d "extends")) &&
  isArrV (normListField (getF d "plugins")) &&
  isObjV (normObjField (getF d "parserOptions")) &&
  innerNodup (normObjField (getF d "parserOptions")) &&
  isObjV (normObjField (getF d "rules"))

/-- The shape of a document already put through `updateRootESLintConfig`.
Running the migration over a document in this shape changes nothing, and
every successful run produces a document in this shape. -/
def Migrated (d : Doc) : Prop :=
  nodupKeys d = true ∧
  (∃ A0, getF d "extends" = some (.arr (JVal.str "plugin:@nrwl/nx/typescript" :: A0)) ∧
    (∀ x ∈ JVal.str "plugin:@nrwl/nx/typescript" :: A0, includesSV tsExtList x = false) ∧
    dedupSV (JVal.str "plugin:@nrwl/nx/typescript" :: A0) =
      JVal.str "plugin:@nrwl/nx/typescript" :: A0) ∧
  (∃ P, getF d "plugins" = some (.arr P) ∧ includesSV P (.str "@nrwl/nx") = true ∧
    (∀ x ∈ P, includesSV tsPluginsList x = false) ∧ dedupSV P = P) ∧
  (∃ G, getF d "parserOptions" = some (.obj G) ∧
    (∀ kv ∈ G, strictEqU kv.2 (getProp tsPOVal kv.1) = false) ∧
    (∀ v, getF G "ecmaVersion" = some v →
      ecmaDeleteCond (some v) (some (.num 2020)) = false)) ∧
  (∀ os, getF d "overrides" = some (.arr os) → os = []) ∧
  (∃ R, getF d "rules" = some (.obj R) ∧
    (∀ kv ∈ R, deepEqU kv.2 (getProp tsRulesVal kv.1) = false)) ∧
  strictEqOpt (getF d "parser") (some (.str "@typescript-eslint/parser")) = false

/-! ### Basic lemmas about strict equality -/

theorem strictEq_eq {x y : JVal} (h : strictEq x y = true) : x = y := by
  cases x <;> cases y <;> simp_all [strictEq]

theorem strictEq_str_refl (s : String) : strictEq (.str s) (.str s) = true := by
  simp [strictEq]

/-! ### Lemmas about document field access and update -/

theorem getF_nil (k : String) : getF ([] : Doc) k = none := rfl

theorem getF_cons (p : String × JVal) (d : Doc) (k : String) :
    getF (p :: d) k = if p.1 == k then some p.2 else getF d k := by
  cases h : p.1 == k <;> simp [getF, List.find?_cons, h]

theorem getF_eq_none_of_not_any {d : Doc} {k : String}
    (h : d.any (fun p => p.1 == k) = false) : getF d k = none := by
  induction d with
  | nil => rfl
  | cons p t ih =>
    simp only [List.any_cons, Bool.or_eq_false_iff] at h
    simp [getF_cons, h.1, ih h.2]

theorem any_eq_true_of_getF_some {d : Doc} {k : String} {v : JVal}
    (h : getF d k = some v) : d.any (fun p => p.1 == k) = true := by
  by_contra hc
  rw [getF_eq_none_of_not_any (Bool.eq_false_iff.mpr hc)] at h
  exact Option.noConfusion h

theorem getF_append_left {d₁ d₂ : Doc} {k : String} {v : JVal}
    (h : getF d₁ k = some v) : getF (d₁ ++ d₂) k = some v := by
  induction d₁ with
  | nil => simp [getF_nil] at h
  | cons p t ih =>
    rw [getF_cons] at h
    cases hp : p.1 == k <;> simp_all [getF_cons, hp]

theorem getF_append_right {d₁ d₂ : Doc} {k : String}
    (h : getF d₁ k = none) : getF (d₁ ++ d₂) k = getF d₂ k := by
  induction d₁ with
  | nil => rfl
  | cons p t ih =>
    rw [getF_cons] at h
    cases hp : p.1 == k <;> simp_all [getF_cons, hp]

theorem getF_map_set_self (d : Doc) (k : String) (v : JVal)
    (hany : d.any (fun p => p.1 == k) = true) :
    getF (d.map (fun p => if p.1 == k then (k, v) else p)) k = some v := by
  induction d with
  | nil => simp at hany
  | cons p t ih =>
    simp only [List.any_cons, Bool.or_eq_true] at hany
    by_cases hp : p.1 = k
    · simp [getF_cons, hp]
    · have hb : (p.1 == k) = false := by simpa using hp
      rcases hany with h1 | h1
      · rw [hb] at h1; exact Bool.noConfusion h1
      · simpa [getF_cons, hp] using ih h1

theorem getF_map_set_ne (d : Doc) (k k' : String) (v : JVal) (h : k' ≠ k) :
    getF (d.map (fun p => if p.1 == k then (k, v) else p)) k' = getF d k' := by
  induction d with
  | nil => rfl
  | cons p t ih =>
    by_cases hp : p.1 = k
    · simpa [getF_cons, hp, Ne.symm h] using ih
    · by_cases hp2 : p.1 = k'
      · simp [getF_cons, hp, hp2, h]
      · simpa [getF_cons, hp, hp2] using ih

theorem getF_setF_self (d : Doc) (k : String) (v : JVal) :
    getF (setF d k v) k = some v := by
  unfold setF
  split
  case isTrue hany => exact getF_map_set_self d k v hany
  case isFalse hany =>
    rw [getF_append_right (getF_eq_none_of_not_any (Bool.eq_false_iff.mpr hany))]
    simp [getF_cons]

theorem getF_setF_ne (d : Doc) (k k' : String) (v : JVal) (h : k' ≠ k) :
    getF (setF d k v) k' = getF d k' := by
  unfold setF
  split
  case isTrue hany => exact getF_map_set_ne d k k' v h
  case isFalse hany =>
    cases hd : getF d k' with
    | some v' => exact getF_append_left hd
    | none =>
      rw [getF_append_right hd]
      have h1 : (k == k') = false := by simp [Ne.symm h]
      simp [getF_cons, h1, getF_nil]

theorem getF_delF_self (d : Doc) (k : String) : getF (delF d k) k = none := by
  apply getF_eq_none_of_not_any
  simp only [delF, List.any_filter]
  simp

theorem getF_delF_ne (d : Doc) (k k' : String) (h : k' ≠ k) :
    getF (delF d k) k' = getF d k' := by
  induction d with
  | nil => rfl
  | cons p t ih =>
    simp only [delF, List.filter_cons] at ih ⊢
    by_cases hp : p.1 = k
    · have hb : (!(p.1 == k)) = false := by simp [hp]
      rw [hb]
      simp only [Bool.false_eq_true, if_false]
      rw [ih, getF_cons]
      have h2 : (p.1 == k') = false := by simp [hp, Ne.symm h]
      simp [h2]
    · have hb : (!(p.1 == k)) = true := by simp [hp]
      rw [hb]
      simp only [if_true]
      cases hb2 : p.1 == k' <;> simp [getF_cons, hb2, ih]

theorem filter_ne_map_set (d : Doc) (k : String) (v : JVal) :
    (d.map (fun p => if p.1 == k then (k, v) else p)).filter (fun p => !(p.1 == k))
      = d.filter (fun p => !(p.1 == k)) := by
  induction d with
  | nil => rfl
  | cons p t ih => by_cases hp : p.1 = k <;> simpa [hp] using ih

theorem delF_setF (d : Doc) (k : String) (v : JVal) :
    delF (setF d k v) k = delF d k := by
  unfold setF
  split
  case isTrue hany =>
    simp only [delF]
    exact filter_ne_map_set d k v
  case isFalse hany =>
    simp [delF, List.filter_append]

theorem getF_eq_none_iff {d : Doc} {k : String} :
    getF d k = none ↔ ∀ p ∈ d, (p.1 == k) = false := by
  constructor
  · intro h p hp
    by_contra hc
    have hb : (p.1 == k) = true := eq_true_of_ne_false hc
    induction d with
    | nil => exact absurd hp (List.not_mem_nil p)
    | cons q t ih =>
      rw [getF_cons] at h
      rcases List.mem_cons.mp hp with rfl | hpt
      · rw [hb] at h; simp at h
      · cases hq : q.1 == k with
        | true => rw [hq] at h; simp at h
        | false => rw [hq] at h; simp at h; exact ih h hpt
  · intro h
    exact getF_eq_none_of_not_any (List.any_eq_false.mpr (by simpa using h))

theorem getF_filter_none {fs : Doc} {k : String} (q : String × JVal → Bool)
    (h : getF fs k = none) : getF (fs.filter q) k = none := by
  rw [getF_eq_none_iff] at h ⊢
  intro p hp
  exact h p (List.mem_of_mem_filter hp)

theorem nodupKeys_cons {p : String × JVal} {d : Doc} :
    nodupKeys (p :: d) = true ↔ (∀ q ∈ d, q.1 ≠ p.1) ∧ nodupKeys d = true := by
  simp only [nodupKeys, List.map_cons, List.nodup_cons, decide_eq_true_eq, List.mem_map]
  constructor
  · rintro ⟨h1, h2⟩
    exact ⟨fun q hq hqe => h1 ⟨q, hq, hqe⟩, h2⟩
  · rintro ⟨h1, h2⟩
    exact ⟨fun ⟨q, hq, hqe⟩ => h1 q hq hqe, h2⟩

theorem getF_eq_of_mem_nodup {d : Doc} {p : String × JVal}
    (hn : nodupKeys d = true) (hp : p ∈ d) : getF d p.1 = some p.2 := by
  induction d with
  | nil => exact absurd hp (List.not_mem_nil p)
  | cons q t ih =>
    rcases nodupKeys_cons.mp hn with ⟨h1, h2⟩
    rcases List.mem_cons.mp hp with rfl | hpt
    · simp [getF_cons]
    · have hne : (q.1 == p.1) = false := by
        simpa using fun hc : q.1 = p.1 => (h1 p hpt) (hc.symm)
      simp [getF_cons, hne, ih h2 hpt]

theorem setF_self {d : Doc} {k : String} {v : JVal}
    (hn : nodupKeys d = true) (hg : getF d k = some v) : setF d k v = d := by
  unfold setF
  rw [if_pos (any_eq_true_of_getF_some hg)]
  conv_rhs => rw [← List.map_id d]
  apply List.map_congr_left
  intro p hp
  by_cases hk : p.1 = k
  · have hv : getF d k = some p.2 := hk ▸ getF_eq_of_mem_nodup hn hp
    rw [hg] at hv
    have : p = (k, v) := by
      obtain ⟨a, b⟩ := p
      simp only at hk
      injection hv with hv2
      simp [hk, hv2]
    simp [hk, this]
  · simp [hk]

theorem delF_absent {d : Doc} {k : String} (h : getF d k = none) : delF d k = d := by
  unfold delF
  apply List.filter_eq_self.mpr
  intro p hp
  simpa using getF_eq_none_iff.mp h p hp

theorem nodupKeys_setF {d : Doc} {k : String} {v : JVal} (h : nodupKeys d = true) :
    nodupKeys (setF d k v) = true := by
  unfold setF
  split
  case isTrue hany =>
    simp only [nodupKeys, decide_eq_true_eq, List.map_map] at h ⊢
    have : (d.map (Prod.fst ∘ fun p => if p.1 == k then (k, v) else p)) = d.map Prod.fst := by
      apply List.map_congr_left
      intro p _
      by_cases hp : p.1 = k <;> simp [hp, Function.comp]
    rw [this]
    exact h
  case isFalse hany =>
    simp only [nodupKeys, decide_eq_true_eq, List.map_append] at h ⊢
    refine List.Nodup.append h (List.nodup_singleton k) ?_
    intro a ha hak
    simp only [List.map_cons, List.map_nil, List.mem_singleton] at hak
    subst hak
    rcases List.mem_map.mp ha with ⟨p, hp, hpa⟩
    exact hany (List.any_eq_true.mpr ⟨p, hp, by simp [hpa]⟩)

theorem nodupKeys_filter {d : Doc} (q : String × JVal → Bool) (h : nodupKeys d = true) :
    nodupKeys (d.filter q) = true := by
  simp only [nodupKeys, decide_eq_true_eq] at h ⊢
  exact List.Nodup.sublist (List.Sublist.map Prod.fst (List.filter_sublist d)) h

theorem nodupKeys_delF {d : Doc} {k : String} (h : nodupKeys d = true) :
    nodupKeys (delF d k) = true :=
  nodupKeys_filter _ h

/-! ### Lemmas about SameValueZero de-duplication -/

theorem includesSV_eq_false_iff {cs : List JVal} {x : JVal} :
    includesSV cs x = false ↔ ∀ c ∈ cs, strictEq c x = false := by
  simp [includesSV, List.any_eq_false]

theorem includesSV_str_iff (cs : List JVal) (s : String) :
    includesSV cs (.str s) = true ↔ JVal.str s ∈ cs := by
  constructor
  · intro h
    rcases List.any_eq_true.mp h with ⟨c, hc, hce⟩
    exact strictEq_eq hce ▸ hc
  · intro h
    exact List.any_eq_true.mpr ⟨.str s, h, strictEq_str_refl s⟩

theorem mem_dedupSV {l : List JVal} {x : JVal} : x ∈ dedupSV l ↔ x ∈ l := by
  induction l with
  | nil => simp [dedupSV]
  | cons y ys ih =>
    rw [dedupSV]
    constructor
    · intro h
      rcases List.mem_cons.mp h with rfl | h2
      · exact List.mem_cons_self _ _
      · exact List.mem_cons_of_mem _ (ih.mp (List.mem_of_mem_filter h2))
    · intro h
      rcases List.mem_cons.mp h with rfl | h2
      · exact List.mem_cons_self _ _
      · cases hs : strictEq y x with
        | true => rw [strictEq_eq hs]; exact List.mem_cons_self _ _
        | false =>
          exact List.mem_cons_of_mem _
            (List.mem_filter.mpr ⟨ih.mpr h2, by simp [hs]⟩)

theorem dedupSV_sublist (l : List JVal) : List.Sublist (dedupSV l) l := by
  induction l with
  | nil => simp [dedupSV]
  | cons y ys ih =>
    rw [dedupSV]
    exact List.Sublist.cons₂ y (List.Sublist.trans (List.filter_sublist _) ih)

theorem dedupSV_pairwise (l : List JVal) :
    (dedupSV l).Pairwise (fun a b => strictEq a b = false) := by
  induction l with
  | nil => simp [dedupSV]
  | cons y ys ih =>
    rw [dedupSV]
    refine List.Pairwise.cons ?_ (List.Pairwise.filter _ ih)
    intro z hz
    simpa using List.of_mem_filter hz

theorem dedupSV_eq_self_of_pairwise {l : List JVal}
    (h : l.Pairwise (fun a b => strictEq a b = false)) : dedupSV l = l := by
  induction l with
  | nil => rfl
  | cons y ys ih =>
    rw [dedupSV]
    rcases List.pairwise_cons.mp h with ⟨h1, h2⟩
    rw [ih h2]
    congr 1
    apply List.filter_eq_self.mpr
    intro z hz
    simp [h1 z hz]

theorem dedupSV_idem (l : List JVal) : dedupSV (dedupSV l) = dedupSV l :=
  dedupSV_eq_self_of_pairwise (dedupSV_pairwise l)

theorem dedupSV_nodup {l : List JVal} (h : ∀ x ∈ l, strictEq x x = true) :
    (dedupSV l).Nodup := by
  induction l with
  | nil => simp [dedupSV]
  | cons y ys ih =>
    rw [dedupSV]
    refine List.Nodup.cons ?_ (List.Nodup.filter _ (ih ?_))
    · intro hy
      have := List.of_mem_filter hy
      rw [h y (List.mem_cons_self y ys)] at this
      simp at this
    · intro x hx
      exact h x (List.mem_cons_of_mem y hx)

/-! ### Lemmas about the entry-delete loops -/

theorem foldl_delF_eq_filter (cond : (String × JVal) → Bool) (l acc : Doc) :
    (l.foldl (fun acc kv => if cond kv then delF acc kv.1 else acc) acc)
      = acc.filter (fun p => l.all (fun kv => !cond kv || !(p.1 == kv.1))) := by
  induction l generalizing acc with
  | nil => simp
  | cons kv t ih =>
    simp only [List.foldl_cons, List.all_cons]
    rw [ih]
    cases hc : cond kv with
    | true =>
      simp only [if_true]
      unfold delF
      rw [List.filter_filter]
      apply List.filter_congr
      intro p _
      simp [hc, Bool.and_comm]
    | false =>
      simp only [Bool.false_eq_true, if_false]
      apply List.filter_congr
      intro p _
      simp [hc]

theorem dme_eq_filter (cmp : JVal → Option JVal → Bool) (ref : JVal) (fs : Doc) :
    deleteMatchingEntries cmp ref fs
      = fs.filter (fun p => fs.all (fun kv =>
          !cmp kv.2 (getProp ref kv.1) || !(p.1 == kv.1))) :=
  foldl_delF_eq_filter _ fs fs

theorem dme_survivor {cmp : JVal → Option JVal → Bool} {ref : JVal} {fs : Doc}
    {p : String × JVal} (hp : p ∈ deleteMatchingEntries cmp ref fs) :
    p ∈ fs ∧ cmp p.2 (getProp ref p.1) = false := by
  rw [dme_eq_filter] at hp
  have hmem := List.mem_of_mem_filter hp
  have hpred := List.of_mem_filter hp
  refine ⟨hmem, ?_⟩
  have := List.all_eq_true.mp hpred p hmem
  simpa using this

theorem dme_noop {cmp : JVal → Option JVal → Bool} {ref : JVal} {fs : Doc}
    (h : ∀ kv ∈ fs, cmp kv.2 (getProp ref kv.1) = false) :
    deleteMatchingEntries cmp ref fs = fs := by
  rw [dme_eq_filter]
  apply List.filter_eq_self.mpr
  intro p _
  apply List.all_eq_true.mpr
  intro kv hkv
  simp [h kv hkv]

theorem setF_setF (d : Doc) (k : String) (v v' : JVal) :
    setF (setF d k v) k v' = setF d k v' := by
  unfold setF
  by_cases hany : d.any (fun p => p.1 == k) = true
  · have hany2 : (d.map (fun p => if p.1 == k then (k, v) else p)).any
        (fun p => p.1 == k) = true := by
      rcases List.any_eq_true.mp hany with ⟨p, hp, hpk⟩
      refine List.any_eq_true.mpr ⟨(k, v), List.mem_map.mpr ⟨p, hp, by simp [hpk]⟩, by simp⟩
    simp only [hany, if_true, hany2, List.map_map]
    apply List.map_congr_left
    intro p _
    by_cases hp : p.1 = k <;> simp [hp, Function.comp]
  · have hall : ∀ p ∈ d, (p.1 == k) = false := by
      intro p hp
      by_contra hc
      exact hany (List.any_eq_true.mpr ⟨p, hp, by simpa using hc⟩)
    have hany2 : ((d ++ [(k, v)]).any (fun p => p.1 == k)) = true := by simp
    have hmap : d.map (fun p => if p.1 = k then (k, v') else p) = d := by
      conv_rhs => rw [← List.map_id d]
      apply List.map_congr_left
      intro p hp
      have hne : ¬p.1 = k := by simpa using hall p hp
      simp [hne]
    simp only [Bool.not_eq_true] at hany
    simp only [hany, hany2, if_true, List.map_append]
    simp [hmap, hall]

/-! ### Normalization facts -/

theorem ensureStringArray_arr (xs : List JVal) :
    ensureStringArray (some (.arr xs)) = .arr xs := rfl

theorem normListField_arr (xs : List JVal) :
    normListField (some (.arr xs)) = .arr xs := rfl

theorem normObjField_obj (fs : Doc) :
    normObjField (some (.obj fs)) = .obj fs := rfl

/-! ### Elimination lemmas for the reducers -/

theorem updateExtends_spec {json cfg : Doc} {del : Bool} {idStr : String} {j' c' : Doc}
    (h : updateExtendsAndRemoveDuplication json cfg del idStr = some (j', c')) :
    ∃ xs cs, ensureStringArray (getF json "extends") = .arr xs ∧
      ensureStringArray (getF cfg "extends") = .arr cs ∧
      j' = (if del && (extCore xs cs idStr).isEmpty then delF json "extends"
            else setF json "extends" (.arr (extCore xs cs idStr))) ∧
      c' = setF cfg "extends" (.arr cs) := by
  unfold updateExtendsAndRemoveDuplication at h
  dsimp only at h
  split at h
  case h_1 xs cs he hce =>
    refine ⟨xs, cs, he, hce, ?_, ?_⟩
    · injection h with h1
      have h2 := congrArg Prod.fst h1
      simp only at h2
      rw [← h2]
      rw [he, setF_setF, delF_setF]
    · injection h with h1
      have h2 := congrArg Prod.snd h1
      simp only at h2
      rw [← h2, hce]
  case h_2 => exact absurd h (by simp)

theorem updatePlugins_spec {json cfg : Doc} {del : Bool} {ens : Option String} {j' c' : Doc}
    (h : updatePluginsAndRemoveDuplication json cfg del ens = some (j', c')) :
    ∃ ps cs, normListField (getF json "plugins") = .arr ps ∧
      normListField (getF cfg "plugins") = .arr cs ∧
      j' = (if del && (plugCore ps cs ens).isEmpty then delF json "plugins"
            else setF json "plugins" (.arr (plugCore ps cs ens))) ∧
      c' = (if truthyOpt (getF cfg "plugins") then cfg else setF cfg "plugins" (.arr cs)) := by
  unfold updatePluginsAndRemoveDuplication at h
  dsimp only at h
  split at h
  case h_1 ps cs hp hcp =>
    refine ⟨ps, cs, hp, hcp, ?_, ?_⟩
    · injection h with h1
      have h2 := congrArg Prod.fst h1
      simp only at h2
      rw [← h2]
      by_cases ht : truthyOpt (getF json "plugins") = true
      · simp only [ht, if_true, delF_setF]
      · simp only [Bool.not_eq_true] at ht
        simp only [ht, Bool.false_eq_true, if_false, hp, setF_setF, delF_setF]
    · injection h with h1
      have h2 := congrArg Prod.snd h1
      simp only at h2
      rw [← h2, hcp]
  case h_2 => exact absurd h (by simp)

theorem updatePO_spec {json cfg : Doc} {j' c' : Doc}
    (h : updateParserOptionsAndRemoveDuplication json cfg = some (j', c')) :
    ∃ fs, normObjField (getF json "parserOptions") = .obj fs ∧
      j' = setF json "parserOptions"
        (.obj (poCore fs (normObjField (getF cfg "parserOptions")))) ∧
      c' = (if truthyOpt (getF cfg "parserOptions") then cfg
            else setF cfg "parserOptions" (normObjField (getF cfg "parserOptions"))) := by
  unfold updateParserOptionsAndRemoveDuplication at h
  dsimp only at h
  split at h
  case h_1 fs hf =>
    refine ⟨fs, hf, ?_, ?_⟩
    · injection h with h1
      have h2 := congrArg Prod.fst h1
      simp only at h2
      rw [← h2]
      by_cases ht : truthyOpt (getF json "parserOptions") = true
      · simp only [ht, if_true]
      · simp only [Bool.not_eq_true] at ht
        simp only [ht, Bool.false_eq_true, if_false, hf, setF_setF]
    · injection h with h1
      have h2 := congrArg Prod.snd h1
      simp only at h2
      rw [← h2]
  case h_2 => exact absurd h (by simp)

theorem updateObjProp_spec {json cfg : Doc} {f : String} {del : Bool} {j' c' : Doc}
    (h : updateObjPropAndRemoveDuplication json cfg f del = some (j', c')) :
    ∃ fs, normObjField (getF json f) = .obj fs ∧
      j' = (if del && (objCore fs (normObjField (getF cfg f))).isEmpty then delF json f
            else setF json f (.obj (objCore fs (normObjField (getF cfg f))))) ∧
      c' = (if truthyOpt (getF cfg f) then cfg
            else setF cfg f (normObjField (getF cfg f))) := by
  unfold updateObjPropAndRemoveDuplication at h
  dsimp only at h
  split at h
  case h_1 fs hf =>
    refine ⟨fs, hf, ?_, ?_⟩
    · injection h with h1
      have h2 := congrArg Prod.fst h1
      simp only at h2
      rw [← h2]
      by_cases ht : truthyOpt (getF json f) = true
      · simp only [ht, if_true, delF_setF]
      · simp only [Bool.not_eq_true] at ht
        simp only [ht, Bool.false_eq_true, if_false, hf, setF_setF, delF_setF]
    · injection h with h1
      have h2 := congrArg Prod.snd h1
      simp only at h2
      rw [← h2]
  case h_2 => exact absurd h (by simp)

theorem overridesFilterPred_false (cs : List JVal) (o : JVal) :
    overridesFilterPred cs o = false := by
  unfold overridesFilterPred
  cases cs.find? (fun c => deepEq o c) <;> rfl

theorem updateOverrides_eq (json cfg : Doc) (del : Bool) :
    updateOverridesAndRemoveDuplication json cfg del =
      if overridesBothNonempty json cfg then
        (if del then delF json "overrides" else setF json "overrides" (.arr []))
      else json := by
  unfold updateOverridesAndRemoveDuplication overridesBothNonempty
  cases hj : getF json "overrides" with
  | none => simp
  | some v =>
    cases v with
    | arr os =>
      cases os with
      | nil => simp
      | cons o os =>
        simp only [List.isEmpty_cons, Bool.false_eq_true, if_false]
        cases hc : getF cfg "overrides" with
        | none => simp
        | some w =>
          cases w with
          | arr cs =>
            cases cs with
            | nil => simp
            | cons c cs =>
              simp only [List.isEmpty_cons, Bool.false_eq_true, if_false, Bool.and_self,
                if_true]
              have hflt : (o :: os).filter (fun x => overridesFilterPred (c :: cs) x) = [] := by
                simp [overridesFilterPred_false]
              rw [hflt]
              simp only [List.isEmpty_nil, Bool.and_true]
              cases del with
              | true => simp [delF_setF]
              | false => simp
          | null => simp
          | bool b => simp
          | num n => simp
          | str s => simp
          | obj fs => simp
    | null => simp
    | bool b => simp
    | num n => simp
    | str s => simp
    | obj fs => simp

/-! ### Frame lemmas: each reducer only touches its own field -/

theorem updateExtends_frame {json cfg : Doc} {del : Bool} {idStr : String} {j' c' : Doc}
    (h : updateExtendsAndRemoveDuplication json cfg del idStr = some (j', c'))
    {k : String} (hk : k ≠ "extends") : getF j' k = getF json k := by
  rcases updateExtends_spec h with ⟨xs, cs, _, _, hj, _⟩
  subst hj
  split
  · exact getF_delF_ne json "extends" k hk
  · exact getF_setF_ne json "extends" k _ hk

theorem updatePlugins_frame {json cfg : Doc} {del : Bool} {ens : Option String} {j' c' : Doc}
    (h : updatePluginsAndRemoveDuplication json cfg del ens = some (j', c'))
    {k : String} (hk : k ≠ "plugins") : getF j' k = getF json k := by
  rcases updatePlugins_spec h with ⟨ps, cs, _, _, hj, _⟩
  subst hj
  split
  · exact getF_delF_ne json "plugins" k hk
  · exact getF_setF_ne json "plugins" k _ hk

theorem updatePO_frame {json cfg : Doc} {j' c' : Doc}
    (h : updateParserOptionsAndRemoveDuplication json cfg = some (j', c'))
    {k : String} (hk : k ≠ "parserOptions") : getF j' k = getF json k := by
  rcases updatePO_spec h with ⟨fs, _, hj, _⟩
  subst hj
  exact getF_setF_ne json "parserOptions" k _ hk

theorem updateObjProp_frame {json cfg : Doc} {f : String} {del : Bool} {j' c' : Doc}
    (h : updateObjPropAndRemoveDuplication json cfg f del = some (j', c'))
    {k : String} (hk : k ≠ f) : getF j' k = getF json k := by
  rcases updateObjProp_spec h with ⟨fs, _, hj, _⟩
  subst hj
  split
  · exact getF_delF_ne json f k hk
  · exact getF_setF_ne json f k _ hk

theorem updateOverrides_frame (json cfg : Doc) (del : Bool)
    {k : String} (hk : k ≠ "overrides") :
    getF (updateOverridesAndRemoveDuplication json cfg del) k = getF json k := by
  rw [updateOverrides_eq]
  split
  · split
    · exact getF_delF_ne json "overrides" k hk
    · exact getF_setF_ne json "overrides" k _ hk
  · rfl

/-! ### Key-uniqueness preservation -/

theorem updateExtends_nodup {json cfg : Doc} {del : Bool} {idStr : String} {j' c' : Doc}
    (h : updateExtendsAndRemoveDuplication json cfg del idStr = some (j', c'))
    (hn : nodupKeys json = true) : nodupKeys j' = true := by
  rcases updateExtends_spec h with ⟨xs, cs, _, _, hj, _⟩
  subst hj
  split
  · exact nodupKeys_delF hn
  · exact nodupKeys_setF hn

theorem updatePlugins_nodup {json cfg : Doc} {del : Bool} {ens : Option String} {j' c' : Doc}
    (h : updatePluginsAndRemoveDuplication json cfg del ens = some (j', c'))
    (hn : nodupKeys json = true) : nodupKeys j' = true := by
  rcases updatePlugins_spec h with ⟨ps, cs, _, _, hj, _⟩
  subst hj
  split
  · exact nodupKeys_delF hn
  · exact nodupKeys_setF hn

theorem updatePO_nodup {json cfg : Doc} {j' c' : Doc}
    (h : updateParserOptionsAndRemoveDuplication json cfg = some (j', c'))
    (hn : nodupKeys json = true) : nodupKeys j' = true := by
  rcases updatePO_spec h with ⟨fs, _, hj, _⟩
  subst hj
  exact nodupKeys_setF hn

theorem updateObjProp_nodup {json cfg : Doc} {f : String} {del : Bool} {j' c' : Doc}
    (h : updateObjPropAndRemoveDuplication json cfg f del = some (j', c'))
    (hn : nodupKeys json = true) : nodupKeys j' = true := by
  rcases updateObjProp_spec h with ⟨fs, _, hj, _⟩
  subst hj
  split
  · exact nodupKeys_delF hn
  · exact nodupKeys_setF hn

theorem updateOverrides_nodup (json cfg : Doc) (del : Bool)
    (hn : nodupKeys json = true) :
    nodupKeys (updateOverridesAndRemoveDuplication json cfg del) = true := by
  rw [updateOverrides_eq]
  split
  · split
    · exact nodupKeys_delF hn
    · exact nodupKeys_setF hn
  · exact hn

theorem getF_some_mem {d : Doc} {k : String} {v : JVal} (h : getF d k = some v) :
    (k, v) ∈ d := by
  induction d with
  | nil => simp [getF_nil] at h
  | cons p t ih =>
    rw [getF_cons] at h
    by_cases hp : p.1 = k
    · have hb : (p.1 == k) = true := by simpa using hp
      rw [hb] at h
      simp only [if_true] at h
      injection h with hv
      have hpv : p = (k, v) := by
        obtain ⟨a, b⟩ := p
        simp only at hp hv
        simp [hp, hv]
      rw [hpv]
      exact List.mem_cons_self _ _
    · have hb : (p.1 == k) = false := by simpa using hp
      rw [hb] at h
      simp only [Bool.false_eq_true, if_false] at h
      exact List.mem_cons_of_mem p (ih h)

theorem jnumEq_nan_left (x : JNum) : jnumEq .nan x = false := by
  cases x <;> rfl

theorem ecmaDeleteCond_none (cev : Option JVal) : ecmaDeleteCond none cev = false := by
  unfold ecmaDeleteCond
  rw [show jsToNumberOpt none = JNum.nan from rfl, jnumEq_nan_left, jnumEq_nan_left]
  rfl

/-! ### Core-list computations -/

theorem extCore_mem_prop {xs cs : List JVal} {idStr : String} :
    ∀ x ∈ extCore xs cs idStr, includesSV cs x = false := by
  intro x hx
  have := List.of_mem_filter (mem_dedupSV.mp hx)
  simpa using this

theorem extCore_cons {xs cs : List JVal} {idStr : String}
    (h : includesSV cs (.str idStr) = false) :
    extCore xs cs idStr = .str idStr ::
      ((dedupSV (xs.filter (fun x => !includesSV cs x))).filter
        (fun y => !strictEq (.str idStr) y)) := by
  unfold extCore
  rw [List.filter_cons]
  have hh : (!includesSV cs (.str idStr)) = true := by simp [h]
  rw [hh]
  simp only [if_true]
  rw [dedupSV]

theorem extCore_dedup (xs cs : List JVal) (idStr : String) :
    dedupSV (extCore xs cs idStr) = extCore xs cs idStr :=
  dedupSV_idem _

theorem plugCore_mem_prop {ps cs : List JVal} {ens : Option String} :
    ∀ x ∈ plugCore ps cs ens, includesSV cs x = false := by
  intro x hx
  unfold plugCore at hx
  have := List.of_mem_filter (mem_dedupSV.mp hx)
  simpa using this

theorem plugCore_dedup (ps cs : List JVal) (ens : Option String) :
    dedupSV (plugCore ps cs ens) = plugCore ps cs ens :=
  dedupSV_idem _

theorem plugCore_mem_ens {ps cs : List JVal} {s : String}
    (hcs : includesSV cs (.str s) = false) :
    includesSV (plugCore ps cs (some s)) (.str s) = true := by
  unfold plugCore
  dsimp only
  rw [includesSV_str_iff, mem_dedupSV, List.mem_filter]
  refine ⟨?_, by simp [hcs]⟩
  by_cases hmem : includesSV ps (.str s) = true
  · have hb : (!includesSV ps (.str s)) = false := by simp [hmem]
    rw [hb]
    simp only [Bool.false_eq_true, if_false]
    exact (includesSV_str_iff ps s).mp hmem
  · have hb : (!includesSV ps (.str s)) = true := by
      simp [Bool.eq_false_iff.mpr hmem]
    rw [hb]
    simp only [if_true]
    exact List.mem_cons_self _ _

/-! ### Introduction equations for the reducers -/

theorem updateExtends_eq_of_arr {json cfg : Doc} {xs cs : List JVal}
    (del : Bool) (idStr : String)
    (hx : ensureStringArray (getF json "extends") = .arr xs)
    (hc : ensureStringArray (getF cfg "extends") = .arr cs) :
    updateExtendsAndRemoveDuplication json cfg del idStr =
      some (if del && (extCore xs cs idStr).isEmpty then delF json "extends"
            else setF json "extends" (.arr (extCore xs cs idStr)),
            setF cfg "extends" (.arr cs)) := by
  unfold updateExtendsAndRemoveDuplication
  dsimp only
  rw [hx, hc]
  dsimp only
  rw [setF_setF, delF_setF]

theorem updatePlugins_eq_of_arr {json cfg : Doc} {ps cs : List JVal}
    (del : Bool) (ens : Option String)
    (hx : normListField (getF json "plugins") = .arr ps)
    (hc : normListField (getF cfg "plugins") = .arr cs) :
    updatePluginsAndRemoveDuplication json cfg del ens =
      some (if del && (plugCore ps cs ens).isEmpty then delF json "plugins"
            else setF json "plugins" (.arr (plugCore ps cs ens)),
            if truthyOpt (getF cfg "plugins") then cfg
            else setF cfg "plugins" (.arr cs)) := by
  unfold updatePluginsAndRemoveDuplication
  dsimp only
  rw [hx, hc]
  by_cases ht : truthyOpt (getF json "plugins") = true
  · simp only [ht, if_true, delF_setF]
  · simp only [Bool.not_eq_true] at ht
    simp only [ht, Bool.false_eq_true, if_false, setF_setF, delF_setF]

theorem updatePO_eq_of_obj {json cfg : Doc} {fs : Doc}
    (hx : normObjField (getF json "parserOptions") = .obj fs) :
    updateParserOptionsAndRemoveDuplication json cfg =
      some (setF json "parserOptions"
              (.obj (poCore fs (normObjField (getF cfg "parserOptions")))),
            if truthyOpt (getF cfg "parserOptions") then cfg
            else setF cfg "parserOptions" (normObjField (getF cfg "parserOptions"))) := by
  unfold updateParserOptionsAndRemoveDuplication
  dsimp only
  rw [hx]
  by_cases ht : truthyOpt (getF json "parserOptions") = true
  · simp only [ht, if_true]
  · simp only [Bool.not_eq_true] at ht
    simp only [ht, Bool.false_eq_true, if_false, setF_setF]

theorem updateObjProp_eq_of_obj {json cfg : Doc} {f : String} {fs : Doc} (del : Bool)
    (hx : normObjField (getF json f) = .obj fs) :
    updateObjPropAndRemoveDuplication json cfg f del =
      some (if del && (objCore fs (normObjField (getF cfg f))).isEmpty then delF json f
            else setF json f (.obj (objCore fs (normObjField (getF cfg f)))),
            if truthyOpt (getF cfg f) then cfg
            else setF cfg f (normObjField (getF cfg f))) := by
  unfold updateObjPropAndRemoveDuplication
  dsimp only
  rw [hx]
  by_cases ht : truthyOpt (getF json f) = true
  · simp only [ht, if_true, delF_setF]
  · simp only [Bool.not_eq_true] at ht
    simp only [ht, Bool.false_eq_true, if_false, setF_setF, delF_setF]

/-! ### The reference document is a fixed point of the reference-side updates -/

theorem updateExtends_cfg_ctc {json j' c' : Doc} {del : Bool} {idStr : String}
    (h : updateExtendsAndRemoveDuplication json currentTypescriptConfig del idStr
      = some (j', c')) : c' = currentTypescriptConfig := by
  rcases updateExtends_spec h with ⟨xs, cs, _, hcs, _, hc⟩
  have h0 : ensureStringArray (getF currentTypescriptConfig "extends") = .arr tsExtList := by
    decide
  rw [h0] at hcs
  have : cs = tsExtList := (JVal.arr.inj hcs).symm
  subst this
  rw [hc]
  decide

theorem updatePlugins_cfg_ctc {json j' c' : Doc} {del : Bool} {ens : Option String}
    (h : updatePluginsAndRemoveDuplication json currentTypescriptConfig del ens
      = some (j', c')) : c' = currentTypescriptConfig := by
  rcases updatePlugins_spec h with ⟨ps, cs, _, _, _, hc⟩
  have ht : truthyOpt (getF currentTypescriptConfig "plugins") = true := by decide
  rw [hc, if_pos ht]

theorem updatePO_cfg_ctc {json j' c' : Doc}
    (h : updateParserOptionsAndRemoveDuplication json currentTypescriptConfig
      = some (j', c')) : c' = currentTypescriptConfig := by
  rcases updatePO_spec h with ⟨fs, _, _, hc⟩
  have ht : truthyOpt (getF currentTypescriptConfig "parserOptions") = true := by decide
  rw [hc, if_pos ht]

theorem updateObjProp_cfg_ctc {json j' c' : Doc} {del : Bool}
    (h : updateObjPropAndRemoveDuplication json currentTypescriptConfig "rules" del
      = some (j', c')) : c' = currentTypescriptConfig := by
  rcases updateObjProp_spec h with ⟨fs, _, _, hc⟩
  have ht : truthyOpt (getF currentTypescriptConfig "rules") = true := by decide
  rw [hc, if_pos ht]

/-! ### Fixed points of the core-list computations -/

theorem extCore_fixpoint {A0 cs : List JVal} {idStr : String}
    (hincl : ∀ x ∈ JVal.str idStr :: A0, includesSV cs x = false)
    (hded : dedupSV (JVal.str idStr :: A0) = JVal.str idStr :: A0) :
    extCore (JVal.str idStr :: A0) cs idStr = JVal.str idStr :: A0 := by
  unfold extCore
  have hfil : (JVal.str idStr :: JVal.str idStr :: A0).filter
      (fun x => !includesSV cs x) = JVal.str idStr :: JVal.str idStr :: A0 := by
    apply List.filter_eq_self.mpr
    intro x hx
    rcases List.mem_cons.mp hx with rfl | hx2
    · simp [hincl _ (List.mem_cons_self _ _)]
    · simp [hincl _ hx2]
  rw [hfil, dedupSV, hded]
  congr 1
  rw [List.filter_cons]
  have hself : (!strictEq (JVal.str idStr) (JVal.str idStr)) = false := by
    simp [strictEq_str_refl]
  rw [hself]
  simp only [Bool.false_eq_true, if_false]
  apply List.filter_eq_self.mpr
  intro y hy
  have hpw : (JVal.str idStr :: A0).Pairwise (fun a b => strictEq a b = false) := by
    rw [← hded]
    exact dedupSV_pairwise _
  simp [(List.pairwise_cons.mp hpw).1 y hy]

theorem plugCore_fixpoint {P cs : List JVal} {s : String}
    (hmem : includesSV P (.str s) = true)
    (hincl : ∀ x ∈ P, includesSV cs x = false)
    (hded : dedupSV P = P) :
    plugCore P cs (some s) = P := by
  unfold plugCore
  dsimp only
  have hb : (!includesSV P (.str s)) = false := by simp [hmem]
  rw [hb]
  simp only [Bool.false_eq_true, if_false]
  have hfil : P.filter (fun x => !includesSV cs x) = P := by
    apply List.filter_eq_self.mpr
    intro x hx
    simp [hincl x hx]
  rw [hfil, hded]

theorem poCore_fixpoint {G : Doc} {cpv : JVal}
    (hcmp : ∀ kv ∈ G, strictEqU kv.2 (getProp cpv kv.1) = false)
    (hecma : ∀ v, getF G "ecmaVersion" = some v →
      ecmaDeleteCond (some v) (getProp cpv "ecmaVersion") = false) :
    poCore G cpv = G := by
  unfold poCore
  have hcond : ecmaDeleteCond (getF G "ecmaVersion") (getProp cpv "ecmaVersion") = false := by
    cases hv : getF G "ecmaVersion" with
    | none => exact ecmaDeleteCond_none _
    | some v => exact hecma v hv
  rw [hcond]
  simp only [Bool.false_eq_true, if_false]
  exact dme_noop hcmp

/-! ### A migrated document is a fixed point of the whole migration -/

theorem migrated_fixpoint {d : Doc} (h : Migrated d) :
    updateRootESLintConfig d = some d := by
  obtain ⟨hnd, ⟨A0, he, hincl, hded⟩, ⟨P, hp, hpmem, hpincl, hpded⟩,
    ⟨G, hg, hgcmp, hgecma⟩, hov, ⟨R, hr, hrcmp⟩, hpar⟩ := h
  have hctcext : ensureStringArray (getF currentTypescriptConfig "extends")
      = .arr tsExtList := by decide
  have hctcplug : normListField (getF currentTypescriptConfig "plugins")
      = .arr tsPluginsList := by decide
  have hctcpo : normObjField (getF currentTypescriptConfig "parserOptions") = tsPOVal := by
    decide
  have hctcrules : normObjField (getF currentTypescriptConfig "rules") = tsRulesVal := by
    decide
  have s1 : updateExtendsAndRemoveDuplication d currentTypescriptConfig true
      "plugin:@nrwl/nx/typescript" = some (d, currentTypescriptConfig) := by
    have hx : ensureStringArray (getF d "extends")
        = .arr (JVal.str "plugin:@nrwl/nx/typescript" :: A0) := by
      rw [he]
      exact ensureStringArray_arr _
    rw [updateExtends_eq_of_arr true "plugin:@nrwl/nx/typescript" hx hctcext]
    rw [extCore_fixpoint hincl hded]
    simp only [List.isEmpty_cons, Bool.and_false, Bool.false_eq_true, if_false]
    rw [setF_self hnd he]
    have : setF currentTypescriptConfig "extends" (.arr tsExtList)
        = currentTypescriptConfig := by decide
    rw [this]
  have s2 : updatePluginsAndRemoveDuplication d currentTypescriptConfig true
      (some "@nrwl/nx") = some (d, currentTypescriptConfig) := by
    have hx : normListField (getF d "plugins") = .arr P := by
      rw [hp]
      exact normListField_arr _
    rw [updatePlugins_eq_of_arr true (some "@nrwl/nx") hx hctcplug]
    rw [plugCore_fixpoint hpmem hpincl hpded]
    have hne : P.isEmpty = false := by
      cases P with
      | nil => simp [includesSV] at hpmem
      | cons a t => rfl
    rw [hne]
    simp only [Bool.and_false, Bool.false_eq_true, if_false]
    rw [setF_self hnd hp]
    have ht : truthyOpt (getF currentTypescriptConfig "plugins") = true := by decide
    rw [if_pos ht]
  have s3 : updateParserOptionsAndRemoveDuplication d currentTypescriptConfig
      = some (d, currentTypescriptConfig) := by
    have hx : normObjField (getF d "parserOptions") = .obj G := by
      rw [hg]
      exact normObjField_obj _
    rw [updatePO_eq_of_obj hx, hctcpo]
    have hpo2020 : getProp tsPOVal "ecmaVersion" = some (.num 2020) := by decide
    have hcore : poCore G tsPOVal = G := by
      apply poCore_fixpoint hgcmp
      intro v hv
      rw [hpo2020]
      exact hgecma v hv
    rw [hcore, setF_self hnd hg]
    have ht : truthyOpt (getF currentTypescriptConfig "parserOptions") = true := by decide
    rw [if_pos ht]
  have s4 : updateOverridesAndRemoveDuplication d currentTypescriptConfig true = d := by
    rw [updateOverrides_eq]
    have hcond : overridesBothNonempty d currentTypescriptConfig = false := by
      unfold overridesBothNonempty
      cases hj : getF d "overrides" with
      | none => rfl
      | some v =>
        cases v with
        | arr os =>
          have hos := hov os hj
          subst hos
          rfl
        | null => rfl
        | bool b => rfl
        | num n => rfl
        | str s => rfl
        | obj fs => rfl
    rw [hcond]
    simp
  have s5 : updateObjPropAndRemoveDuplication d currentTypescriptConfig "rules" false
      = some (d, currentTypescriptConfig) := by
    have hx : normObjField (getF d "rules") = .obj R := by
      rw [hr]
      exact normObjField_obj _
    rw [updateObjProp_eq_of_obj false hx, hctcrules]
    have hcore : objCore R tsRulesVal = R := dme_noop hrcmp
    rw [hcore]
    simp only [Bool.false_and, Bool.false_eq_true, if_false]
    rw [setF_self hnd hr]
    have ht : truthyOpt (getF currentTypescriptConfig "rules") = true := by decide
    rw [if_pos ht]
  have s6 : strictEqOpt (getF d "parser") (getF currentTypescriptConfig "parser") = false := by
    have hcp : getF currentTypescriptConfig "parser"
        = some (.str "@typescript-eslint/parser") := by decide
    rw [hcp]
    exact hpar
  unfold updateRootESLintConfig
  simp only [bind]
  rw [s1, Option.some_bind]
  dsimp only
  rw [s2, Option.some_bind]
  dsimp only
  rw [s3, Option.some_bind]
  dsimp only
  rw [s4, s5, Option.some_bind]
  dsimp only
  rw [s6]
  simp

/-! ### Shape extraction from well-formedness -/

theorem isArrV_iff {v : JVal} : isArrV v = true ↔ ∃ xs, v = .arr xs := by
  cases v <;> simp [isArrV]

theorem isObjV_iff {v : JVal} : isObjV v = true ↔ ∃ fs, v = .obj fs := by
  cases v <;> simp [isObjV]

/-! ### Concrete facts about the reference document -/

theorem ctc_ext_norm : ensureStringArray (getF currentTypescriptConfig "extends")
    = .arr tsExtList := by decide

theorem ctc_plug_norm : normListField (getF currentTypescriptConfig "plugins")
    = .arr tsPluginsList := by decide

theorem ctc_po_norm : normObjField (getF currentTypescriptConfig "parserOptions")
    = tsPOVal := by decide

theorem ctc_rules_norm : normObjField (getF currentTypescriptConfig "rules")
    = tsRulesVal := by decide

theorem ctc_setF_ext : setF currentTypescriptConfig "extends" (.arr tsExtList)
    = currentTypescriptConfig := by decide

theorem ctc_plug_truthy : truthyOpt (getF currentTypescriptConfig "plugins") = true := by
  decide

theorem ctc_po_truthy : truthyOpt (getF currentTypescriptConfig "parserOptions") = true := by
  decide

theorem ctc_rules_truthy : truthyOpt (getF currentTypescriptConfig "rules") = true := by
  decide

theorem ctc_id_not_in_ext :
    includesSV tsExtList (.str "plugin:@nrwl/nx/typescript") = false := by decide

theorem ctc_nx_not_in_plug : includesSV tsPluginsList (.str "@nrwl/nx") = false := by decide

theorem ctc_po_ecma : getProp tsPOVal "ecmaVersion" = some (.num 2020) := by decide

theorem ctc_overrides_nonempty :
    (match getF currentTypescriptConfig "overrides" with
     | some (.arr (_ :: _)) => true
     | _ => false) = true := by decide

theorem ctc_parserField : getF currentTypescriptConfig "parser"
    = some (.str "@typescript-eslint/parser") := by decide

theorem bothNonempty_false_elim {json cfg : Doc}
    (h : overridesBothNonempty json cfg = false)
    (hcfg : (match getF cfg "overrides" with
             | some (.arr (_ :: _)) => true
             | _ => false) = true)
    {os : List JVal} (hj : getF json "overrides" = some (.arr os)) : os = [] := by
  unfold overridesBothNonempty at h
  rw [hj, hcfg] at h
  cases os with
  | nil => rfl
  | cons o os =>
    simp at h

/-! ### A successful run establishes the migrated shape -/

theorem run_establishes_migrated {json : Doc} (hwf : wfDoc json = true) :
    ∃ j', updateRootESLintConfig json = some j' ∧ Migrated j' := by
  unfold wfDoc at hwf
  simp only [Bool.and_eq_true] at hwf
  obtain ⟨⟨⟨⟨⟨hnd, hext⟩, hplug⟩, hpo⟩, hpoN⟩, hrul⟩ := hwf
  obtain ⟨xs0, hxs0⟩ := isArrV_iff.mp hext
  obtain ⟨ps0, hps0⟩ := isArrV_iff.mp hplug
  obtain ⟨G0, hG0⟩ := isObjV_iff.mp hpo
  obtain ⟨R0, hR0⟩ := isObjV_iff.mp hrul
  have hG0n : nodupKeys G0 = true := by
    rw [hG0] at hpoN
    exact hpoN
  -- step 1: extends
  obtain ⟨A0, hA⟩ : ∃ A0, extCore xs0 tsExtList "plugin:@nrwl/nx/typescript"
      = .str "plugin:@nrwl/nx/typescript" :: A0 :=
    ⟨_, extCore_cons ctc_id_not_in_ext⟩
  have hAne : (extCore xs0 tsExtList "plugin:@nrwl/nx/typescript").isEmpty = false := by
    rw [hA]
    rfl
  set j1 : Doc := setF json "extends"
    (.arr (extCore xs0 tsExtList "plugin:@nrwl/nx/typescript")) with hj1def
  have h1 : updateExtendsAndRemoveDuplication json currentTypescriptConfig true
      "plugin:@nrwl/nx/typescript" = some (j1, currentTypescriptConfig) := by
    rw [updateExtends_eq_of_arr true "plugin:@nrwl/nx/typescript" hxs0 ctc_ext_norm,
      hAne, ctc_setF_ext]
    simp
  have hj1nd : nodupKeys j1 = true := nodupKeys_setF hnd
  have hj1e : getF j1 "extends"
      = some (.arr (JVal.str "plugin:@nrwl/nx/typescript" :: A0)) := by
    rw [hj1def, getF_setF_self, hA]
  -- step 2: plugins
  have hps1 : normListField (getF j1 "plugins") = .arr ps0 := by
    rw [hj1def, getF_setF_ne json "extends" "plugins" _ (by decide)]
    exact hps0
  set P : List JVal := plugCore ps0 tsPluginsList (some "@nrwl/nx") with hPdef
  have hPmem : includesSV P (.str "@nrwl/nx") = true :=
    plugCore_mem_ens ctc_nx_not_in_plug
  have hPne : P.isEmpty = false := by
    cases hP : P with
    | nil =>
      rw [hP] at hPmem
      simp [includesSV] at hPmem
    | cons a t => rfl
  set j2 : Doc := setF j1 "plugins" (.arr P) with hj2def
  have h2 : updatePluginsAndRemoveDuplication j1 currentTypescriptConfig true
      (some "@nrwl/nx") = some (j2, currentTypescriptConfig) := by
    rw [updatePlugins_eq_of_arr true (some "@nrwl/nx") hps1 ctc_plug_norm,
      if_pos ctc_plug_truthy]
    rw [← hPdef, hPne]
    simp
  have hj2nd : nodupKeys j2 = true := nodupKeys_setF hj1nd
  have hj2e : getF j2 "extends"
      = some (.arr (JVal.str "plugin:@nrwl/nx/typescript" :: A0)) := by
    rw [hj2def, getF_setF_ne j1 "plugins" "extends" _ (by decide)]
    exact hj1e
  have hj2p : getF j2 "plugins" = some (.arr P) := by
    rw [hj2def, getF_setF_self]
  -- step 3: parserOptions
  have hG1 : normObjField (getF j2 "parserOptions") = .obj G0 := by
    rw [hj2def, getF_setF_ne j1 "plugins" "parserOptions" _ (by decide),
      hj1def, getF_setF_ne json "extends" "parserOptions" _ (by decide)]
    exact hG0
  set G : Doc := poCore G0 tsPOVal with hGdef
  set j3 : Doc := setF j2 "parserOptions" (.obj G) with hj3def
  have h3 : updateParserOptionsAndRemoveDuplication j2 currentTypescriptConfig
      = some (j3, currentTypescriptConfig) := by
    rw [updatePO_eq_of_obj hG1, ctc_po_norm, if_pos ctc_po_truthy]
  have hj3nd : nodupKeys j3 = true := nodupKeys_setF hj2nd
  have hj3e : getF j3 "extends"
      = some (.arr (JVal.str "plugin:@nrwl/nx/typescript" :: A0)) := by
    rw [hj3def, getF_setF_ne j2 "parserOptions" "extends" _ (by decide)]
    exact hj2e
  have hj3p : getF j3 "plugins" = some (.arr P) := by
    rw [hj3def, getF_setF_ne j2 "parserOptions" "plugins" _ (by decide)]
    exact hj2p
  have hj3g : getF j3 "parserOptions" = some (.obj G) := by
    rw [hj3def, getF_setF_self]
  -- step 4: overrides
  set j4 : Doc := updateOverridesAndRemoveDuplication j3 currentTypescriptConfig true
    with hj4def
  have hj4nd : nodupKeys j4 = true := updateOverrides_nodup _ _ _ hj3nd
  have hj4e : getF j4 "extends"
      = some (.arr (JVal.str "plugin:@nrwl/nx/typescript" :: A0)) := by
    rw [hj4def, updateOverrides_frame _ _ _ (by decide)]
    exact hj3e
  have hj4p : getF j4 "plugins" = some (.arr P) := by
    rw [hj4def, updateOverrides_frame _ _ _ (by decide)]
    exact hj3p
  have hj4g : getF j4 "parserOptions" = some (.obj G) := by
    rw [hj4def, updateOverrides_frame _ _ _ (by decide)]
    exact hj3g
  have hj4ov : ∀ os, getF j4 "overrides" = some (.arr os) → os = [] := by
    intro os hos
    rw [hj4def, updateOverrides_eq] at hos
    by_cases hcond : overridesBothNonempty j3 currentTypescriptConfig = true
    · rw [if_pos hcond] at hos
      simp only [if_true] at hos
      rw [getF_delF_self] at hos
      exact Option.noConfusion hos
    · have hcf : overridesBothNonempty j3 currentTypescriptConfig = false :=
        Bool.eq_false_iff.mpr hcond
      rw [hcf] at hos
      simp only [Bool.false_eq_true, if_false] at hos
      exact bothNonempty_false_elim hcf ctc_overrides_nonempty hos
  -- step 5: rules
  have hR1 : normObjField (getF j4 "rules") = .obj R0 := by
    rw [hj4def, updateOverrides_frame _ _ _ (by decide),
      hj3def, getF_setF_ne j2 "parserOptions" "rules" _ (by decide),
      hj2def, getF_setF_ne j1 "plugins" "rules" _ (by decide),
      hj1def, getF_setF_ne json "extends" "rules" _ (by decide)]
    exact hR0
  set R : Doc := objCore R0 tsRulesVal with hRdef
  set j5 : Doc := setF j4 "rules" (.obj R) with hj5def
  have h5 : updateObjPropAndRemoveDuplication j4 currentTypescriptConfig "rules" false
      = some (j5, currentTypescriptConfig) := by
    rw [updateObjProp_eq_of_obj false hR1, ctc_rules_norm, if_pos ctc_rules_truthy]
    simp
  have hj5nd : nodupKeys j5 = true := nodupKeys_setF hj4nd
  have hj5e : getF j5 "extends"
      = some (.arr (JVal.str "plugin:@nrwl/nx/typescript" :: A0)) := by
    rw [hj5def, getF_setF_ne j4 "rules" "extends" _ (by decide)]
    exact hj4e
  have hj5p : getF j5 "plugins" = some (.arr P) := by
    rw [hj5def, getF_setF_ne j4 "rules" "plugins" _ (by decide)]
    exact hj4p
  have hj5g : getF j5 "parserOptions" = some (.obj G) := by
    rw [hj5def, getF_setF_ne j4 "rules" "parserOptions" _ (by decide)]
    exact hj4g
  have hj5ov : ∀ os, getF j5 "overrides" = some (.arr os) → os = [] := by
    intro os hos
    rw [hj5def, getF_setF_ne j4 "rules" "overrides" _ (by decide)] at hos
    exact hj4ov os hos
  have hj5r : getF j5 "rules" = some (.obj R) := by
    rw [hj5def, getF_setF_self]
  -- the invariant bundle for the list fields
  have hextincl : ∀ x ∈ JVal.str "plugin:@nrwl/nx/typescript" :: A0,
      includesSV tsExtList x = false := by
    rw [← hA]
    exact extCore_mem_prop
  have hextded : dedupSV (JVal.str "plugin:@nrwl/nx/typescript" :: A0)
      = JVal.str "plugin:@nrwl/nx/typescript" :: A0 := by
    rw [← hA]
    exact extCore_dedup _ _ _
  have hplugincl : ∀ x ∈ P, includesSV tsPluginsList x = false := by
    rw [hPdef]
    exact plugCore_mem_prop
  have hplugded : dedupSV P = P := by
    rw [hPdef]
    exact plugCore_dedup _ _ _
  have hGcmp : ∀ kv ∈ G, strictEqU kv.2 (getProp tsPOVal kv.1) = false := by
    intro kv hkv
    rw [hGdef] at hkv
    unfold poCore at hkv
    exact (dme_survivor hkv).2
  have hGecma : ∀ v, getF G "ecmaVersion" = some v →
      ecmaDeleteCond (some v) (some (.num 2020)) = false := by
    intro v hv
    rw [hGdef] at hv
    unfold poCore at hv
    by_cases hcond : ecmaDeleteCond (getF G0 "ecmaVersion")
        (getProp tsPOVal "ecmaVersion") = true
    · rw [if_pos hcond] at hv
      rw [dme_eq_filter, getF_filter_none _ (getF_delF_self G0 "ecmaVersion")] at hv
      exact Option.noConfusion hv
    · have hcf := Bool.eq_false_iff.mpr hcond
      rw [hcf] at hv
      simp only [Bool.false_eq_true, if_false] at hv
      have hmem := getF_some_mem hv
      have hmem0 := (dme_survivor hmem).1
      have hv0 : getF G0 "ecmaVersion" = some v := getF_eq_of_mem_nodup hG0n hmem0
      rw [hv0, ctc_po_ecma] at hcf
      exact hcf
  have hRcmp : ∀ kv ∈ R, deepEqU kv.2 (getProp tsRulesVal kv.1) = false := by
    intro kv hkv
    rw [hRdef] at hkv
    unfold objCore at hkv
    exact (dme_survivor hkv).2
  -- step 6: the final parser pass
  refine ⟨if strictEqOpt (getF j5 "parser") (getF currentTypescriptConfig "parser")
          then delF j5 "parser" else j5, ?_, ?_⟩
  · unfold updateRootESLintConfig
    simp only [bind]
    rw [h1, Option.some_bind]
    dsimp only
    rw [h2, Option.some_bind]
    dsimp only
    rw [h3, Option.some_bind]
    dsimp only
    rw [← hj4def, h5, Option.some_bind]
    dsimp only
    rfl
  · rw [ctc_parserField]
    by_cases hpcond : strictEqOpt (getF j5 "parser")
        (some (.str "@typescript-eslint/parser")) = true
    · rw [if_pos hpcond]
      refine ⟨nodupKeys_delF hj5nd,
        ⟨A0, ?_, hextincl, hextded⟩, ⟨P, ?_, hPmem, hplugincl, hplugded⟩,
        ⟨G, ?_, hGcmp, hGecma⟩, ?_, ⟨R, ?_, hRcmp⟩, ?_⟩
      · rw [getF_delF_ne _ _ _ (by decide)]
        exact hj5e
      · rw [getF_delF_ne _ _ _ (by decide)]
        exact hj5p
      · rw [getF_delF_ne _ _ _ (by decide)]
        exact hj5g
      · intro os hos
        rw [getF_delF_ne _ _ _ (by decide)] at hos
        exact hj5ov os hos
      · rw [getF_delF_ne _ _ _ (by decide)]
        exact hj5r
      · rw [getF_delF_self]
        rfl
    · have hpf := Bool.eq_false_iff.mpr hpcond
      rw [hpf]
      simp only [Bool.false_eq_true, if_false]
      exact ⟨hj5nd, ⟨A0, hj5e, hextincl, hextded⟩, ⟨P, hj5p, hPmem, hplugincl, hplugded⟩,
        ⟨G, hj5g, hGcmp, hGecma⟩, hj5ov, ⟨R, hj5r, hRcmp⟩, hpf⟩

/-! ### Elimination of the orchestrated sequence -/

theorem run_elim {json out : Doc} (h : updateRootESLintConfig json = some out) :
    ∃ j1 c1 j2 c2 j3 c3 j5 c5,
      updateExtendsAndRemoveDuplication json currentTypescriptConfig true
        "plugin:@nrwl/nx/typescript" = some (j1, c1) ∧
      updatePluginsAndRemoveDuplication j1 c1 true (some "@nrwl/nx") = some (j2, c2) ∧
      updateParserOptionsAndRemoveDuplication j2 c2 = some (j3, c3) ∧
      updateObjPropAndRemoveDuplication (updateOverridesAndRemoveDuplication j3 c3 true)
        c3 "rules" false = some (j5, c5) ∧
      out = (if strictEqOpt (getF j5 "parser") (getF c5 "parser")
             then delF j5 "parser" else j5) := by
  unfold updateRootESLintConfig at h
  simp only [bind] at h
  rcases Option.bind_eq_some.mp h with ⟨⟨j1, c1⟩, h1, h⟩
  dsimp only at h
  rcases Option.bind_eq_some.mp h with ⟨⟨j2, c2⟩, h2, h⟩
  dsimp only at h
  rcases Option.bind_eq_some.mp h with ⟨⟨j3, c3⟩, h3, h⟩
  dsimp only at h
  rcases Option.bind_eq_some.mp h with ⟨⟨j5, c5⟩, h5, h⟩
  dsimp only at h
  injection h with hout
  exact ⟨j1, c1, j2, c2, j3, c3, j5, c5, h1, h2, h3, h5, hout.symm⟩

/-! ### Further helper lemmas for the per-key characterizations -/

theorem deepEq_refl (a : JVal) : deepEq a a = true := by
  simp [deepEq]

theorem nodup_key_eq {d : Doc} (hn : nodupKeys d = true) {p q : String × JVal}
    (hp : p ∈ d) (hq : q ∈ d) (h : p.1 = q.1) : p = q := by
  have h1 := getF_eq_of_mem_nodup hn hp
  have h2 := getF_eq_of_mem_nodup hn hq
  rw [h] at h1
  rw [h1] at h2
  injection h2 with h3
  obtain ⟨a, b⟩ := p
  obtain ⟨c, e⟩ := q
  simp only at h h3
  simp [h, h3]

theorem getF_filter_nodup {fs : Doc} {k : String} (q : String × JVal → Bool)
    (hn : nodupKeys fs = true) :
    getF (fs.filter q) k = (match getF fs k with
      | some v => if q (k, v) then some v else none
      | none => none) := by
  induction fs with
  | nil => rfl
  | cons p t ih =>
    rcases nodupKeys_cons.mp hn with ⟨h1, h2⟩
    by_cases hp : p.1 = k
    · have hb : (p.1 == k) = true := by simpa using hp
      have hpv : (k, p.2) = p := by
        obtain ⟨a, b⟩ := p
        simp only at hp
        simp [hp]
      have htk : getF t k = none := by
        rw [getF_eq_none_iff]
        intro r hr
        have hne := h1 r hr
        rw [hp] at hne
        simpa using hne
      have hgp : getF (p :: t) k = some p.2 := by
        rw [getF_cons, hb]
        simp
      rw [List.filter_cons, hgp]
      dsimp only
      cases hq : q p with
      | true =>
        have hqk : q (k, p.2) = true := by rw [hpv]; exact hq
        rw [hqk]
        simp only [if_true]
        rw [getF_cons, hb]
        simp
      | false =>
        have hqk : q (k, p.2) = false := by rw [hpv]; exact hq
        rw [hqk]
        simp only [Bool.false_eq_true, if_false]
        exact getF_filter_none q htk
    · have hb : (p.1 == k) = false := by simpa using hp
      have hstep : getF ((p :: t).filter q) k = getF (t.filter q) k := by
        rw [List.filter_cons]
        cases hq : q p with
        | true =>
          simp only [if_true]
          rw [getF_cons, hb]
          simp
        | false =>
          simp only [Bool.false_eq_true, if_false]
      rw [hstep, ih h2, getF_cons, hb]
      simp

theorem getF_dme_nodup {cmp : JVal → Option JVal → Bool} {ref : JVal} {fs : Doc}
    (hn : nodupKeys fs = true) (k : String) :
    getF (deleteMatchingEntries cmp ref fs) k = (match getF fs k with
      | some v => if cmp v (getProp ref k) then none else some v
      | none => none) := by
  rw [dme_eq_filter, getF_filter_nodup _ hn]
  cases hv : getF fs k with
  | none => rfl
  | some v =>
    dsimp only
    have hmem := getF_some_mem hv
    have hpred : (fs.all (fun kv => !cmp kv.2 (getProp ref kv.1) || !((k, v).1 == kv.1)))
        = !cmp v (getProp ref k) := by
      cases hc : cmp v (getProp ref k) with
      | true =>
        have hnotall : ¬ (fs.all (fun kv => !cmp kv.2 (getProp ref kv.1)
            || !((k, v).1 == kv.1)) = true) := by
          intro hall
          have hp := List.all_eq_true.mp hall (k, v) hmem
          rw [hc] at hp
          simp at hp
        simp only [Bool.not_true]
        exact Bool.eq_false_iff.mpr hnotall
      | false =>
        simp only [Bool.not_false]
        apply List.all_eq_true.mpr
        intro kv hkv
        by_cases hkk : kv.1 = k
        · have : (k, v) = kv := nodup_key_eq hn hmem hkv (by simpa using hkk.symm)
          rw [← this]
          simp [hc]
        · have : ((k, v).1 == kv.1) = false := by simpa using fun h => hkk h.symm
          simp [this]
    rw [hpred]
    cases cmp v (getProp ref k) <;> rfl

theorem ecmaDeleteCond_some_iff (v : JVal) (m : Option JVal) :
    ecmaDeleteCond (some v) m = true ↔
      (jnumEq (jsToNumber v) (.val 2018 0) = true ∨
       jnumEq (jsToNumber v) (jsToNumberOpt m) = true) := by
  unfold ecmaDeleteCond
  rw [show jsToNumberOpt (some v) = jsToNumber v from rfl]
  exact Bool.or_eq_true_iff

theorem normListField_truthy {o : Option JVal} (h : truthyOpt o = true) :
    some (normListField o) = o := by
  cases o with
  | none => simp [truthyOpt] at h
  | some v =>
    simp only [truthyOpt] at h
    simp [normListField, h]

theorem normObjField_truthy {o : Option JVal} (h : truthyOpt o = true) :
    some (normObjField o) = o := by
  cases o with
  | none => simp [truthyOpt] at h
  | some v =>
    simp only [truthyOpt] at h
    simp [normObjField, h]

theorem extCore_not_mem {xs cs : List JVal} {idStr : String}
    (h : includesSV cs (.str idStr) = true) :
    JVal.str idStr ∉ extCore xs cs idStr := by
  intro hmem
  have hprop := extCore_mem_prop _ hmem
  rw [h] at hprop
  exact Bool.noConfusion hprop

theorem plugCore_not_mem {ps cs : List JVal} {ens : Option String} {s : String}
    (h : includesSV cs (.str s) = true) :
    JVal.str s ∉ plugCore ps cs ens := by
  intro hmem
  have hprop := plugCore_mem_prop _ hmem
  rw [h] at hprop
  exact Bool.noConfusion hprop

theorem plugCore_cons {ps cs : List JVal} {s : String}
    (h1 : includesSV ps (.str s) = false) (h2 : includesSV cs (.str s) = false) :
    plugCore ps cs (some s) = .str s ::
      ((dedupSV (ps.filter (fun x => !includesSV cs x))).filter
        (fun y => !strictEq (.str s) y)) := by
  unfold plugCore
  dsimp only
  have hb : (!includesSV ps (.str s)) = true := by simp [h1]
  rw [hb]
  simp only [if_true]
  rw [List.filter_cons]
  have hh : (!includesSV cs (.str s)) = true := by simp [h2]
  rw [hh]
  simp only [if_true]
  rw [dedupSV]

/-- **C2**: for every well-formed document, the orchestrated transformation of
`updateRootESLintConfig` (extends, plugins, parserOptions, overrides, rules
reducers, then the final parser deletion, against `currentTypescriptConfig`)
succeeds, and applying it a second time to the result returns the result
unchanged: running the migration twice yields exactly the same document as
running it once. -/
theorem c2_migration_idempotent {json : Doc} (hwf : wfDoc json = true) :
    ∃ j', updateRootESLintConfig json = some j' ∧
      updateRootESLintConfig j' = some j' := by
  obtain ⟨j', hrun, hmig⟩ := run_establishes_migrated hwf
  exact ⟨j', hrun, migrated_fixpoint hmig⟩

theorem c2_witness : wfDoc [] = true ∧
    ∃ j', updateRootESLintConfig [] = some j' ∧ updateRootESLintConfig j' = some j' :=
  ⟨by decide, c2_migration_idempotent (by decide)⟩

/-- **C1**: for every target and reference document, the overrides reducer
removes every override entry from the target's `overrides` list whenever both
`overrides` fields are non-empty arrays (deleting the emptied field when the
flag is set, and leaving the empty list otherwise), regardless of whether any
entry matches a reference entry; and when that guard fails (either side's
`overrides` absent, not an array, or empty) it returns the target completely
unchanged. -/
theorem c1_overrides_drops_all_or_no_op (json cfg : Doc) (del : Bool) :
    updateOverridesAndRemoveDuplication json cfg del =
      if overridesBothNonempty json cfg then
        (if del then delF json "overrides" else setF json "overrides" (.arr []))
      else json :=
  updateOverrides_eq json cfg del

/-- **C10**: whenever `updateParserOptionsAndRemoveDuplication` returns, the
resulting target document carries a `parserOptions` field (possibly the empty
object): the reducer has no delete-if-emptied option and never removes the
field it populates via `||= \x7b\x7d`. -/
theorem c10_parserOptions_always_present {json cfg j' c' : Doc}
    (h : updateParserOptionsAndRemoveDuplication json cfg = some (j', c')) :
    ∃ v, getF j' "parserOptions" = some v := by
  rcases updatePO_spec h with ⟨fs, _, hj, _⟩
  subst hj
  exact ⟨_, getF_setF_self _ _ _⟩

theorem c10_witness :
    ∃ v, getF [("parserOptions", JVal.obj [])] "parserOptions" = some v :=
  @c10_parserOptions_always_present [] [] [("parserOptions", JVal.obj [])]
    [("parserOptions", JVal.obj [])] (by decide)

/-- **C9**: the orchestrator's final pass deletes the top-level `parser`
field exactly when the target's `parser` value is strictly equal to the
reference profile's `parser` value (`"@typescript-eslint/parser"`); otherwise
the `parser` field is left unchanged. -/
theorem c9_parser_deleted_iff_matches {json j' : Doc}
    (h : updateRootESLintConfig json = some j') :
    getF j' "parser" =
      if strictEqOpt (getF json "parser") (some (.str "@typescript-eslint/parser"))
      then none else getF json "parser" := by
  rcases run_elim h with ⟨j1, c1, j2, c2, j3, c3, j5, c5, h1, h2, h3, h5, hout⟩
  have hc1 := updateExtends_cfg_ctc h1
  subst hc1
  have hc2 := updatePlugins_cfg_ctc h2
  subst hc2
  have hc3 := updatePO_cfg_ctc h3
  subst hc3
  have hc5 := updateObjProp_cfg_ctc h5
  subst hc5
  have f1 : getF j1 "parser" = getF json "parser" := updateExtends_frame h1 (by decide)
  have f2 : getF j2 "parser" = getF j1 "parser" := updatePlugins_frame h2 (by decide)
  have f3 : getF j3 "parser" = getF j2 "parser" := updatePO_frame h3 (by decide)
  have f4 : getF (updateOverridesAndRemoveDuplication j3 currentTypescriptConfig true)
      "parser" = getF j3 "parser" := updateOverrides_frame _ _ _ (by decide)
  have f5 : getF j5 "parser"
      = getF (updateOverridesAndRemoveDuplication j3 currentTypescriptConfig true)
        "parser" := updateObjProp_frame h5 (by decide)
  have hp : getF j5 "parser" = getF json "parser" := by rw [f5, f4, f3, f2, f1]
  have hcp : getF currentTypescriptConfig "parser"
      = some (.str "@typescript-eslint/parser") := by decide
  rw [hout, hcp, hp]
  split
  · exact getF_delF_self j5 "parser"
  · exact hp

/-- **C3 counterexample**: with the ensured plugin already present in the
target's `plugins` list (but not first), `updatePluginsAndRemoveDuplication`
keeps it in its original position: the injected identifier survives yet the
first element of the resulting list is `"a"`, not the identifier. -/
theorem c3_counterexample :
    updatePluginsAndRemoveDuplication
        [("plugins", JVal.arr [JVal.str "a", JVal.str "@nrwl/nx"])]
        currentTypescriptConfig true (some "@nrwl/nx")
      = some ([("plugins", JVal.arr [JVal.str "a", JVal.str "@nrwl/nx"])],
              currentTypescriptConfig) ∧
    JVal.str "@nrwl/nx" ∈ [JVal.str "a", JVal.str "@nrwl/nx"] ∧
    [JVal.str "a", JVal.str "@nrwl/nx"].head? = some (JVal.str "a") := by
  refine ⟨by decide, by decide, by decide⟩

/-- **C3 (amended)**: the processed `extends` and `plugins` lists contain no
duplicates and preserve first-seen order (each result is a sublist of the
injected-identifier-then-original sequence).  For `extends` the injected
identifier is the first element whenever it survives; for `plugins` the
ensured identifier is the first element whenever it survives and was not
already present in the normalized original list — an already-present plugin
keeps its original position. -/
theorem c3_amended_nodup_order_first :
    (∀ (json cfg : Doc) (del : Bool) (idStr : String) (j' c' : Doc)
        (xs0 A : List JVal),
      ensureStringArray (getF json "extends") = .arr xs0 →
      (∀ x ∈ xs0, ∃ s, x = JVal.str s) →
      updateExtendsAndRemoveDuplication json cfg del idStr = some (j', c') →
      getF j' "extends" = some (.arr A) →
      A.Nodup ∧ List.Sublist A (JVal.str idStr :: xs0) ∧
        (JVal.str idStr ∈ A → A.head? = some (.str idStr))) ∧
    (∀ (json cfg : Doc) (del : Bool) (s : String) (j' c' : Doc)
        (ps0 P : List JVal),
      normListField (getF json "plugins") = .arr ps0 →
      (∀ x ∈ ps0, ∃ t, x = JVal.str t) →
      updatePluginsAndRemoveDuplication json cfg del (some s) = some (j', c') →
      getF j' "plugins" = some (.arr P) →
      P.Nodup ∧ List.Sublist P (JVal.str s :: ps0) ∧
        (includesSV ps0 (.str s) = false → JVal.str s ∈ P →
          P.head? = some (.str s))) := by
  constructor
  · intro json cfg del idStr j' c' xs0 A hx0 hstr hcall hA
    rcases updateExtends_spec hcall with ⟨xs1, cs, hx1, hcs, hj, _⟩
    rw [hx0] at hx1
    have hxe : xs0 = xs1 := JVal.arr.inj hx1
    subst hxe
    subst hj
    by_cases hdel : (del && (extCore xs0 cs idStr).isEmpty) = true
    · rw [if_pos hdel, getF_delF_self] at hA
      exact absurd hA (by simp)
    · rw [if_neg hdel, getF_setF_self] at hA
      injection hA with hA1
      have hAeq : A = extCore xs0 cs idStr := (JVal.arr.inj hA1).symm
      subst hAeq
      refine ⟨?_, ?_, ?_⟩
      · unfold extCore
        apply dedupSV_nodup
        intro x hxmem
        rcases List.mem_cons.mp (List.mem_of_mem_filter hxmem) with rfl | hx2
        · exact strictEq_str_refl idStr
        · rcases hstr x hx2 with ⟨s, rfl⟩
          exact strictEq_str_refl s
      · unfold extCore
        exact List.Sublist.trans (dedupSV_sublist _) (List.filter_sublist _)
      · intro hmem
        by_cases hin : includesSV cs (.str idStr) = true
        · exact absurd hmem (extCore_not_mem hin)
        · rw [extCore_cons (Bool.eq_false_iff.mpr hin)]
          rfl
  · intro json cfg del s j' c' ps0 P hp0 hstr hcall hP
    rcases updatePlugins_spec hcall with ⟨ps1, cs, hp1, hcs, hj, _⟩
    rw [hp0] at hp1
    have hpe : ps0 = ps1 := JVal.arr.inj hp1
    subst hpe
    subst hj
    by_cases hdel : (del && (plugCore ps0 cs (some s)).isEmpty) = true
    · rw [if_pos hdel, getF_delF_self] at hP
      exact absurd hP (by simp)
    · rw [if_neg hdel, getF_setF_self] at hP
      injection hP with hP1
      have hPeq : P = plugCore ps0 cs (some s) := (JVal.arr.inj hP1).symm
      subst hPeq
      have hps1 : ∀ x ∈ (if !includesSV ps0 (.str s) then JVal.str s :: ps0 else ps0),
          x ∈ JVal.str s :: ps0 := by
        intro x hx
        split at hx
        · exact hx
        · exact List.mem_cons_of_mem _ hx
      refine ⟨?_, ?_, ?_⟩
      · unfold plugCore
        dsimp only
        apply dedupSV_nodup
        intro x hxmem
        rcases List.mem_cons.mp (hps1 x (List.mem_of_mem_filter hxmem)) with rfl | hx2
        · exact strictEq_str_refl s
        · rcases hstr x hx2 with ⟨t, rfl⟩
          exact strictEq_str_refl t
      · unfold plugCore
        dsimp only
        refine List.Sublist.trans (List.Sublist.trans (dedupSV_sublist _)
          (List.filter_sublist _)) ?_
        split
        · exact List.Sublist.refl _
        · exact List.sublist_cons_self _ _
      · intro hnotin hmem
        by_cases hin : includesSV cs (.str s) = true
        · exact absurd hmem (plugCore_not_mem hin)
        · rw [plugCore_cons hnotin (Bool.eq_false_iff.mpr hin)]
          rfl

theorem c3_witness :
    [JVal.str "p", JVal.str "a"].Nodup ∧
    List.Sublist [JVal.str "p", JVal.str "a"] (JVal.str "p" :: [JVal.str "a"]) ∧
    [JVal.str "p", JVal.str "a"].head? = some (JVal.str "p") := by
  have h := c3_amended_nodup_order_first.1 [("extends", JVal.arr [JVal.str "a"])] []
    true "p" [("extends", JVal.arr [JVal.str "p", JVal.str "a"])]
    [("extends", JVal.arr [])] [JVal.str "a"] [JVal.str "p", JVal.str "a"]
    (by decide)
    (by
      intro x hx
      simp only [List.mem_singleton] at hx
      exact ⟨"a", hx⟩)
    (by decide) (by decide)
  exact ⟨h.1, h.2.1, h.2.2 (by decide)⟩

/-- **C4 counterexample**: the target has no `rules` field and no insertion
was requested, yet `updateObjPropAndRemoveDuplication` with
`deleteIfUltimatelyEmpty = false` creates the key as an empty object. -/
theorem c4_counterexample :
    getF ([] : Doc) "rules" = none ∧
    updateObjPropAndRemoveDuplication [] [] "rules" false
      = some ([("rules", JVal.obj [])], [("rules", JVal.obj [])]) ∧
    getF [("rules", JVal.obj [])] "rules" = some (JVal.obj []) := by
  refine ⟨rfl, by decide, by decide⟩

/-- **C4 (amended)**: a reducer invoked on an absent field leaves the field
absent when its delete-if-ultimately-empty flag is set (the generic object
reducer with the flag, and the plugins reducer with the flag and no ensured
plugin); but with the flag unset the generic object reducer materializes the
field as an empty object, and the parserOptions reducer always does. -/
theorem c4_amended_absent_field_behavior :
    (∀ (json cfg : Doc) (f : String) (j' c' : Doc),
      getF json f = none →
      updateObjPropAndRemoveDuplication json cfg f true = some (j', c') →
      getF j' f = none) ∧
    (∀ (json cfg : Doc) (j' c' : Doc),
      getF json "parserOptions" = none →
      updateParserOptionsAndRemoveDuplication json cfg = some (j', c') →
      getF j' "parserOptions" = some (JVal.obj [])) ∧
    (∀ (json cfg : Doc) (f : String) (j' c' : Doc),
      getF json f = none →
      updateObjPropAndRemoveDuplication json cfg f false = some (j', c') →
      getF j' f = some (JVal.obj [])) ∧
    (∀ (json cfg : Doc) (j' c' : Doc),
      getF json "plugins" = none →
      updatePluginsAndRemoveDuplication json cfg true none = some (j', c') →
      getF j' "plugins" = none) := by
  refine ⟨?_, ?_, ?_, ?_⟩
  · intro json cfg f j' c' habs hcall
    have hx : normObjField (getF json f) = .obj [] := by
      rw [habs]
      rfl
    rw [updateObjProp_eq_of_obj true hx] at hcall
    injection hcall with hpair
    have hj : j' = (if (true && (objCore [] (normObjField (getF cfg f))).isEmpty) = true
        then delF json f
        else setF json f (.obj (objCore [] (normObjField (getF cfg f))))) :=
      (congrArg Prod.fst hpair).symm
    have hcore : objCore [] (normObjField (getF cfg f)) = [] := rfl
    rw [hcore] at hj
    simp only [List.isEmpty_nil, Bool.and_true, if_true] at hj
    rw [hj, getF_delF_self]
  · intro json cfg j' c' habs hcall
    have hx : normObjField (getF json "parserOptions") = .obj [] := by
      rw [habs]
      rfl
    rw [updatePO_eq_of_obj hx] at hcall
    injection hcall with hpair
    have hj : j' = setF json "parserOptions"
        (.obj (poCore [] (normObjField (getF cfg "parserOptions")))) :=
      (congrArg Prod.fst hpair).symm
    have hcore : poCore [] (normObjField (getF cfg "parserOptions")) = [] := by
      unfold poCore
      rw [show getF ([] : Doc) "ecmaVersion" = none from rfl, ecmaDeleteCond_none]
      rfl
    rw [hcore] at hj
    rw [hj, getF_setF_self]
  · intro json cfg f j' c' habs hcall
    have hx : normObjField (getF json f) = .obj [] := by
      rw [habs]
      rfl
    rw [updateObjProp_eq_of_obj false hx] at hcall
    injection hcall with hpair
    have hj : j' = (if (false && (objCore [] (normObjField (getF cfg f))).isEmpty) = true
        then delF json f
        else setF json f (.obj (objCore [] (normObjField (getF cfg f))))) :=
      (congrArg Prod.fst hpair).symm
    simp only [Bool.false_and, Bool.false_eq_true, if_false] at hj
    have hcore : objCore [] (normObjField (getF cfg f)) = [] := rfl
    rw [hcore] at hj
    rw [hj, getF_setF_self]
  · intro json cfg j' c' habs hcall
    have hx : normListField (getF json "plugins") = .arr [] := by
      rw [habs]
      rfl
    rcases updatePlugins_spec hcall with ⟨ps, cs, hps, hcs, hj, _⟩
    rw [hx] at hps
    have hpe : ps = [] := (JVal.arr.inj hps).symm
    subst hpe
    have hcore : plugCore [] cs none = [] := rfl
    rw [hcore] at hj
    simp only [List.isEmpty_nil, Bool.and_true, if_true] at hj
    rw [hj, getF_delF_self]

theorem c4_witness :
    getF ([] : Doc) "env" = none ∧
    getF [("parserOptions", JVal.obj [])] "parserOptions" = some (JVal.obj []) := by
  refine ⟨?_, ?_⟩
  · exact c4_amended_absent_field_behavior.1 [] [] "env" [] [("env", JVal.obj [])]
      rfl (by decide)
  · exact c4_amended_absent_field_behavior.2.1 [] [] [("parserOptions", JVal.obj [])]
      [("parserOptions", JVal.obj [])] rfl (by decide)

/-- **C5 counterexample**: target and reference `parserOptions.x` are both
the structurally identical array `[1]` (the comparator of the specification
holds), yet the reducer retains the key: the generic pass compares with
JavaScript strict equality, which is reference identity on arrays, not deep
structural equality. -/
theorem c5_counterexample :
    updateParserOptionsAndRemoveDuplication
        [("parserOptions", JVal.obj [("x", JVal.arr [JVal.num 1])])]
        [("parserOptions", JVal.obj [("x", JVal.arr [JVal.num 1])])]
      = some ([("parserOptions", JVal.obj [("x", JVal.arr [JVal.num 1])])],
              [("parserOptions", JVal.obj [("x", JVal.arr [JVal.num 1])])]) ∧
    deepEq (JVal.arr [JVal.num 1]) (JVal.arr [JVal.num 1]) = true := by
  exact ⟨by decide, deepEq_refl _⟩

/-- **C5 (amended)**: for every key of the target's `parserOptions` other
than `ecmaVersion`, the reducer deletes the key exactly when its value is
JavaScript-strict-equal (`===`) to the reference's value for the same key —
primitive values compare by value, while structurally identical but distinct
objects and arrays are never equal, hence retained. -/
theorem c5_amended_strict_equality_per_key :
    ∀ (json cfg j' c' : Doc) (fs : Doc) (k : String) (v : JVal),
      getF json "parserOptions" = some (.obj fs) →
      nodupKeys fs = true →
      k ≠ "ecmaVersion" →
      getF fs k = some v →
      updateParserOptionsAndRemoveDuplication json cfg = some (j', c') →
      ∃ gs, getF j' "parserOptions" = some (.obj gs) ∧
        getF gs k = (if strictEqU v (getProp (normObjField (getF cfg "parserOptions")) k)
                     then none else some v) := by
  intro json cfg j' c' fs k v hpo hn hk hv hcall
  have hx : normObjField (getF json "parserOptions") = .obj fs := by
    rw [hpo]
    exact normObjField_obj fs
  rw [updatePO_eq_of_obj hx] at hcall
  injection hcall with hpair
  have hj : j' = setF json "parserOptions"
      (.obj (poCore fs (normObjField (getF cfg "parserOptions")))) :=
    (congrArg Prod.fst hpair).symm
  refine ⟨poCore fs (normObjField (getF cfg "parserOptions")), ?_, ?_⟩
  · rw [hj, getF_setF_self]
  · unfold poCore
    by_cases hcond : ecmaDeleteCond (getF fs "ecmaVersion")
        (getProp (normObjField (getF cfg "parserOptions")) "ecmaVersion") = true
    · rw [if_pos hcond]
      have hn1 : nodupKeys (delF fs "ecmaVersion") = true := nodupKeys_delF hn
      have hv1 : getF (delF fs "ecmaVersion") k = some v := by
        rw [getF_delF_ne _ _ _ hk]
        exact hv
      rw [getF_dme_nodup hn1 k, hv1]
    · rw [if_neg hcond, getF_dme_nodup hn k, hv]

theorem c5_witness :
    ∃ gs, getF [("parserOptions", JVal.obj [("x", JVal.arr [JVal.num 1])])]
        "parserOptions" = some (.obj gs) ∧
      getF gs "x" = (if strictEqU (JVal.arr [JVal.num 1])
          (getProp (normObjField (getF
            [("parserOptions", JVal.obj [("x", JVal.arr [JVal.num 1])])]
            "parserOptions")) "x")
        then none else some (JVal.arr [JVal.num 1])) :=
  c5_amended_strict_equality_per_key
    [("parserOptions", JVal.obj [("x", JVal.arr [JVal.num 1])])]
    [("parserOptions", JVal.obj [("x", JVal.arr [JVal.num 1])])]
    [("parserOptions", JVal.obj [("x", JVal.arr [JVal.num 1])])]
    [("parserOptions", JVal.obj [("x", JVal.arr [JVal.num 1])])]
    [("x", JVal.arr [JVal.num 1])] "x" (JVal.arr [JVal.num 1])
    (by decide) (by decide) (by decide) (by decide) (by decide)

/-- **C6 counterexample**: running the generic object reducer for `rules`
against a reference document that has no `rules` field creates a lasting
`rules: \x7b\x7d` key on the reference document — a field is created on the
reference and the change survives the call. -/
theorem c6_counterexample :
    updateObjPropAndRemoveDuplication [] [("x", JVal.num 1)] "rules" false
      = some ([("rules", JVal.obj [])], [("x", JVal.num 1), ("rules", JVal.obj [])]) ∧
    getF [("x", JVal.num 1)] "rules" = none ∧
    getF [("x", JVal.num 1), ("rules", JVal.obj [])] "rules" = some (JVal.obj []) := by
  refine ⟨by decide, rfl, by decide⟩

/-- **C6 (amended)**: no reducer copies target content into the reference or
alters an existing reference value beyond normalization, but the
normalizations persist: after each call the reference agrees with its old
value on every other key, while the reducer's own field holds exactly the
normalized form of its previous value (`extends` via `ensureStringArray`,
`plugins` via `||= []`, `parserOptions` and the generic object field via
`||= \x7b\x7d`) — in particular an absent container is created as an empty
default and survives the call. -/
theorem c6_amended_reference_normalization_persists :
    (∀ (json cfg : Doc) (del : Bool) (idStr : String) (j' c' : Doc),
      updateExtendsAndRemoveDuplication json cfg del idStr = some (j', c') →
      (∀ k, k ≠ "extends" → getF c' k = getF cfg k) ∧
      getF c' "extends" = some (ensureStringArray (getF cfg "extends"))) ∧
    (∀ (json cfg : Doc) (del : Bool) (ens : Option String) (j' c' : Doc),
      updatePluginsAndRemoveDuplication json cfg del ens = some (j', c') →
      (∀ k, k ≠ "plugins" → getF c' k = getF cfg k) ∧
      getF c' "plugins" = some (normListField (getF cfg "plugins"))) ∧
    (∀ (json cfg : Doc) (j' c' : Doc),
      updateParserOptionsAndRemoveDuplication json cfg = some (j', c') →
      (∀ k, k ≠ "parserOptions" → getF c' k = getF cfg k) ∧
      getF c' "parserOptions" = some (normObjField (getF cfg "parserOptions"))) ∧
    (∀ (json cfg : Doc) (f : String) (del : Bool) (j' c' : Doc),
      updateObjPropAndRemoveDuplication json cfg f del = some (j', c') →
      (∀ k, k ≠ f → getF c' k = getF cfg k) ∧
      getF c' f = some (normObjField (getF cfg f))) := by
  refine ⟨?_, ?_, ?_, ?_⟩
  · intro json cfg del idStr j' c' hcall
    rcases updateExtends_spec hcall with ⟨xs, cs, _, hcs, _, hc⟩
    subst hc
    refine ⟨fun k hk => getF_setF_ne cfg "extends" k _ hk, ?_⟩
    rw [getF_setF_self, ← hcs]
  · intro json cfg del ens j' c' hcall
    rcases updatePlugins_spec hcall with ⟨ps, cs, _, hcs, _, hc⟩
    subst hc
    by_cases ht : truthyOpt (getF cfg "plugins") = true
    · rw [if_pos ht]
      exact ⟨fun k _ => rfl, (normListField_truthy ht).symm⟩
    · rw [if_neg ht]
      refine ⟨fun k hk => getF_setF_ne cfg "plugins" k _ hk, ?_⟩
      rw [getF_setF_self, ← hcs]
  · intro json cfg j' c' hcall
    rcases updatePO_spec hcall with ⟨fs, _, _, hc⟩
    subst hc
    by_cases ht : truthyOpt (getF cfg "parserOptions") = true
    · rw [if_pos ht]
      exact ⟨fun k _ => rfl, (normObjField_truthy ht).symm⟩
    · rw [if_neg ht]
      exact ⟨fun k hk => getF_setF_ne cfg "parserOptions" k _ hk, getF_setF_self _ _ _⟩
  · intro json cfg f del j' c' hcall
    rcases updateObjProp_spec hcall with ⟨fs, _, _, hc⟩
    subst hc
    by_cases ht : truthyOpt (getF cfg f) = true
    · rw [if_pos ht]
      exact ⟨fun k _ => rfl, (normObjField_truthy ht).symm⟩
    · rw [if_neg ht]
      exact ⟨fun k hk => getF_setF_ne cfg f k _ hk, getF_setF_self _ _ _⟩

theorem c6_witness :
    getF [("extends", JVal.arr [])] "extends"
      = some (ensureStringArray (getF ([] : Doc) "extends")) :=
  (c6_amended_reference_normalization_persists.1 [] [] false "x"
    [("extends", JVal.arr [JVal.str "x"])] [("extends", JVal.arr [])] (by decide)).2

/-- **C7 counterexample**: target and reference `parserOptions.ecmaVersion`
are both the non-numeric string `"latest"`, whose numeric coercion is `NaN`,
so it numerically equals neither the sentinel 2018 nor the reference's
coercion (`NaN === NaN` is false in JavaScript); the claim says it is
retained, but the generic strict-equality pass deletes it because the two
strings are `===`-equal. -/
theorem c7_counterexample :
    jsToNumber (JVal.str "latest") = JNum.nan ∧
    updateParserOptionsAndRemoveDuplication
        [("parserOptions", JVal.obj [("ecmaVersion", JVal.str "latest")])]
        [("parserOptions", JVal.obj [("ecmaVersion", JVal.str "latest")])]
      = some ([("parserOptions", JVal.obj [])],
              [("parserOptions", JVal.obj [("ecmaVersion", JVal.str "latest")])]) := by
  refine ⟨by decide, by decide⟩

/-- **C7 (amended)**: for a target with a primitive
`parserOptions.ecmaVersion` value (and a primitive reference value when
present), the key is deleted exactly when `Number` of the value is `===` to
2018, or `Number` of the value is `===` to `Number` of the reference's
ecmaVersion (so in particular never when either coercion is `NaN`), or —
falling through to the generic pass — the value itself is
JavaScript-strict-equal (`===`) to the reference's ecmaVersion value. -/
theorem c7_amended_ecmaVersion_deletion :
    ∀ (json cfg j' c' : Doc) (fs : Doc) (v : JVal),
      getF json "parserOptions" = some (.obj fs) →
      nodupKeys fs = true →
      getF fs "ecmaVersion" = some v →
      isPrim v = true →
      (∀ w, getProp (normObjField (getF cfg "parserOptions")) "ecmaVersion" = some w →
        isPrim w = true) →
      updateParserOptionsAndRemoveDuplication json cfg = some (j', c') →
      ∃ gs, getF j' "parserOptions" = some (.obj gs) ∧
        (getF gs "ecmaVersion" = none ↔
          (jnumEq (jsToNumber v) (.val 2018 0) = true ∨
           jnumEq (jsToNumber v)
             (jsToNumberOpt (getProp (normObjField (getF cfg "parserOptions"))
               "ecmaVersion")) = true ∨
           strictEqU v (getProp (normObjField (getF cfg "parserOptions"))
             "ecmaVersion") = true)) := by
  intro json cfg j' c' fs v hpo hn hv hprim hprimc hcall
  have hx : normObjField (getF json "parserOptions") = .obj fs := by
    rw [hpo]
    exact normObjField_obj fs
  rw [updatePO_eq_of_obj hx] at hcall
  injection hcall with hpair
  have hj : j' = setF json "parserOptions"
      (.obj (poCore fs (normObjField (getF cfg "parserOptions")))) :=
    (congrArg Prod.fst hpair).symm
  refine ⟨poCore fs (normObjField (getF cfg "parserOptions")), ?_, ?_⟩
  · rw [hj, getF_setF_self]
  · unfold poCore
    by_cases hcond : ecmaDeleteCond (getF fs "ecmaVersion")
        (getProp (normObjField (getF cfg "parserOptions")) "ecmaVersion") = true
    · rw [if_pos hcond]
      have hn1 : nodupKeys (delF fs "ecmaVersion") = true := nodupKeys_delF hn
      rw [getF_dme_nodup hn1 "ecmaVersion", getF_delF_self]
      dsimp only
      rw [hv] at hcond
      rcases (ecmaDeleteCond_some_iff v _).mp hcond with h | h
      · simp [h]
      · simp [h]
    · rw [if_neg hcond, getF_dme_nodup hn "ecmaVersion", hv]
      dsimp only
      rw [hv] at hcond
      have hnot := (not_congr (ecmaDeleteCond_some_iff v _)).mp hcond
      push_neg at hnot
      constructor
      · intro hdel
        by_cases hse : strictEqU v (getProp (normObjField (getF cfg "parserOptions"))
            "ecmaVersion") = true
        · exact Or.inr (Or.inr hse)
        · rw [if_neg hse] at hdel
          exact absurd hdel (by simp)
      · rintro (h | h | h)
        · exact absurd h hnot.1
        · exact absurd h hnot.2
        · rw [if_pos h]

theorem c7_witness :
    ∃ gs, getF [("parserOptions", JVal.obj [])] "parserOptions" = some (.obj gs) ∧
      (getF gs "ecmaVersion" = none ↔
        (jnumEq (jsToNumber (JVal.str "2018.0")) (.val 2018 0) = true ∨
         jnumEq (jsToNumber (JVal.str "2018.0"))
           (jsToNumberOpt (getProp (normObjField (getF currentTypescriptConfig
             "parserOptions")) "ecmaVersion")) = true ∨
         strictEqU (JVal.str "2018.0") (getProp (normObjField (getF
           currentTypescriptConfig "parserOptions")) "ecmaVersion") = true)) :=
  c7_amended_ecmaVersion_deletion
    [("parserOptions", JVal.obj [("ecmaVersion", JVal.str "2018.0")])]
    currentTypescriptConfig
    [("parserOptions", JVal.obj [])] currentTypescriptConfig
    [("ecmaVersion", JVal.str "2018.0")] (JVal.str "2018.0")
    (by decide) (by decide) (by decide) (by decide)
    (by
      intro w hw
      rw [show getProp (normObjField (getF currentTypescriptConfig "parserOptions"))
          "ecmaVersion" = some (JVal.num 2020) from by decide] at hw
      injection hw with hw1
      rw [← hw1]
      rfl)
    (by decide)

/-- **C8**: in both list reducers the identifier insertion happens before the
filter against the reference list, so whenever the injected identifier also
occurs (by exact string equality) in the reference's normalized list, it is
absent from the resulting target list. -/
theorem c8_injected_id_stripped :
    (∀ (json cfg : Doc) (del : Bool) (idStr : String) (j' c' : Doc) (cs : List JVal),
      updateExtendsAndRemoveDuplication json cfg del idStr = some (j', c') →
      ensureStringArray (getF cfg "extends") = .arr cs →
      includesSV cs (.str idStr) = true →
      ∀ xs, getF j' "extends" = some (.arr xs) → JVal.str idStr ∉ xs) ∧
    (∀ (json cfg : Doc) (del : Bool) (s : String) (j' c' : Doc) (cs : List JVal),
      updatePluginsAndRemoveDuplication json cfg del (some s) = some (j', c') →
      normListField (getF cfg "plugins") = .arr cs →
      includesSV cs (.str s) = true →
      ∀ ps, getF j' "plugins" = some (.arr ps) → JVal.str s ∉ ps) := by
  constructor
  · intro json cfg del idStr j' c' cs hcall hcs hin xs hx
    rcases updateExtends_spec hcall with ⟨xs0, cs0, _, hcs0, hj, _⟩
    rw [hcs] at hcs0
    have hce : cs = cs0 := JVal.arr.inj hcs0
    subst hce
    subst hj
    by_cases hdel : (del && (extCore xs0 cs idStr).isEmpty) = true
    · rw [if_pos hdel, getF_delF_self] at hx
      exact absurd hx (by simp)
    · rw [if_neg hdel, getF_setF_self] at hx
      injection hx with hx1
      have hxe : xs = extCore xs0 cs idStr := (JVal.arr.inj hx1).symm
      subst hxe
      exact extCore_not_mem hin
  · intro json cfg del s j' c' cs hcall hcs hin ps hx
    rcases updatePlugins_spec hcall with ⟨ps0, cs0, _, hcs0, hj, _⟩
    rw [hcs] at hcs0
    have hce : cs = cs0 := JVal.arr.inj hcs0
    subst hce
    subst hj
    by_cases hdel : (del && (plugCore ps0 cs (some s)).isEmpty) = true
    · rw [if_pos hdel, getF_delF_self] at hx
      exact absurd hx (by simp)
    · rw [if_neg hdel, getF_setF_self] at hx
      injection hx with hx1
      have hxe : ps = plugCore ps0 cs (some s) := (JVal.arr.inj hx1).symm
      subst hxe
      exact plugCore_not_mem hin

theorem c8_witness :
    (JVal.str "p" ∉ ([] : List JVal)) ∧ (JVal.str "q" ∉ ([] : List JVal)) := by
  refine ⟨?_, ?_⟩
  · exact c8_injected_id_stripped.1 [] [("extends", JVal.arr [JVal.str "p"])]
      false "p" [("extends", JVal.arr [])] [("extends", JVal.arr [JVal.str "p"])]
      [JVal.str "p"] (by decide) (by decide) (by decide) [] (by decide)
  · exact c8_injected_id_stripped.2 [] [("plugins", JVal.arr [JVal.str "q"])]
      false "q" [("plugins", JVal.arr [])] [("plugins", JVal.arr [JVal.str "q"])]
      [JVal.str "q"] (by decide) (by decide) (by decide) [] (by decide)

theorem c9_witness :
    getF [("extends", JVal.arr [JVal.str "plugin:@nrwl/nx/typescript"]),
          ("plugins", JVal.arr [JVal.str "@nrwl/nx"]),
          ("parserOptions", JVal.obj []),
          ("rules", JVal.obj [])] "parser" = none := by
  have h := @c9_parser_deleted_iff_matches
    [("parser", JVal.str "@typescript-eslint/parser")]
    [("extends", JVal.arr [JVal.str "plugin:@nrwl/nx/typescript"]),
     ("plugins", JVal.arr [JVal.str "@nrwl/nx"]),
     ("parserOptions", JVal.obj []),
     ("rules", JVal.obj [])] (by decide)
  have hc : strictEqOpt (getF [("parser", JVal.str "@typescript-eslint/parser")] "parser")
      (some (JVal.str "@typescript-eslint/parser")) = true := by decide
  rw [hc] at h
  simpa using h

end NxEslint
